import Mathlib

/-!
# tree_encode: a binary search tree, its pre-order encoding and its comparison

A shallow embedding of `enc-tree.go`.

* A Go `*Node` is a value of the inductive type `Node`: `Node.nil` is the nil
  pointer, `Node.node D Left Right` is a pointer to a struct with these fields.
  The program never shares a node between two parents, so the in-place updates
  of `addtotree` are the rebuilding of the path from the root.
* A Go closure of type `parseTreeDataFunc` is a function that passes the state
  it captures explicitly and returns the new state with an optional error.
* Operations that can stop the program (an index out of range, a nil
  dereference, `log.Fatal`) return an explicit outcome.
* Keys are only compared, never computed with, so a Go `int` key is an `Int`.
* A Go slice is a list; where the nil slice is told apart from the empty one
  (`MakeTree`), the argument is an `Option`.
* The loops `for len(nodestack) > 0` and `for idx < len(arr1)` and the decoding
  loop are total functions, defined by well-founded recursion.
-/

namespace TreeEncode

/-! ## Data model -/

/-- The record carried by every node: `type Data struct { Key int; Val string }`. -/
structure Data where
  Key : Int
  Val : String
deriving DecidableEq, Repr

/-- A reference to a tree node (`*Node`), `nil` being the absent node. -/
inductive Node where
  | nil : Node
  | node (D : Data) (Left : Node) (Right : Node) : Node
deriving DecidableEq, Repr

/-- The value of Go's `error` interface when it is not nil. -/
abbrev GoError := String

/-- The closure type `parseTreeDataFunc`: the captured state `σ` is passed in and out, and the second
component is the returned error (`none` for a nil error). -/
abbrev parseTreeDataFunc (σ : Type) := Data → σ → σ × Option GoError

/-- How a call that runs a visitor over a tree ends: it returns, it stops the process through
`log.Fatal` after the visitor reported `e`, or it hits a run-time failure. -/
inductive Outcome (σ : Type) where
  | finished (s : σ) : Outcome σ
  | fatal (e : GoError) (s : σ) : Outcome σ
  | crashed : Outcome σ
deriving DecidableEq, Repr

/-! ## The stack -/

/-- The slice type `type stack []*Node`. -/
abbrev stack := List Node

/-- The method `Push`: `append(s, v)`. -/
def stack.Push (s : stack) (v : Node) : stack :=
  s ++ [v]

/-- The method `Pop`: `item := s[l-1]; newstack := s[0 : l-1]`; `none` is the index-out-of-range
failure on an empty stack. -/
def stack.Pop (s : stack) : Option (stack × Node) :=
  let l := s.length
  if h : 0 < l then
    some (s.take (l - 1), s.get ⟨l - 1, Nat.sub_lt h Nat.one_pos⟩)
  else
    none

/-! ## Insertion -/

/-- The function `newnode`: a node holding `d` with no children. -/
def newnode (d : Data) : Node :=
  Node.node d Node.nil Node.nil

/-- The `for` loop of `addtotree`, started at `parent`; the result is the subtree rooted at `parent`
after the loop has ended. `parent` is never nil when the loop runs. -/
def addtotreeLoop (d : Data) (newn : Node) : Node → Node
  | Node.nil => Node.nil
  | Node.node pd l r =>
    if d.Key < pd.Key then
      if l ≠ Node.nil then Node.node pd (addtotreeLoop d newn l) r
      else Node.node pd newn r
    else if d.Key > pd.Key then
      if r ≠ Node.nil then Node.node pd l (addtotreeLoop d newn r)
      else Node.node pd l newn
    else
      Node.node pd l r

/-- The function `addtotree`. -/
def addtotree (root : Node) (d : Data) : Node :=
  let newn := newnode d
  if root = Node.nil then newn
  else addtotreeLoop d newn root

/-- The index loop of `MakeTree`: `root = addtotree(root, darr[idx])` for every index in order. -/
def MakeTreeLoop : List Data → Node → Node
  | [], root => root
  | d :: rest, root => MakeTreeLoop rest (addtotree root d)

/-- The function `MakeTree`; `none` is the nil slice. -/
def MakeTree (darr : Option (List Data)) : Node :=
  match darr with
  | none => Node.nil
  | some xs => MakeTreeLoop xs Node.nil

/-! ## Traversal -/

/-- Number of nodes of a tree. -/
def Node.size : Node → Nat
  | Node.nil => 0
  | Node.node _ l r => 1 + l.size + r.size

/-- Total number of nodes below the references held by a stack. -/
def stackWeight (s : stack) : Nat :=
  (s.map Node.size).sum

/-- What one iteration of the loop of `processTree` does. -/
inductive LoopStep (σ : Type) where
  | next (nodestack : stack) (s : σ) : LoopStep σ
  | exit (o : Outcome σ) : LoopStep σ

/-- The body of the loop of `processTree`: pop, visit, push right then left. -/
def processTreeBody {σ : Type} (f : parseTreeDataFunc σ) (nodestack : stack) (s : σ) : LoopStep σ :=
  match stack.Pop nodestack with
  | none => LoopStep.exit Outcome.crashed
  | some (nodestack1, n) =>
    match n with
    | Node.nil => LoopStep.exit Outcome.crashed
    | Node.node D Left Right =>
      match f D s with
      | (s1, some e) => LoopStep.exit (Outcome.fatal e s1)
      | (s1, none) =>
        let nodestack2 := if Right ≠ Node.nil then stack.Push nodestack1 Right else nodestack1
        let nodestack3 := if Left ≠ Node.nil then stack.Push nodestack2 Left else nodestack2
        LoopStep.next nodestack3 s1

/-- The loop `for len(nodestack) > 0 { ... }` of `processTree`. -/
def processTreeLoop {σ : Type} (f : parseTreeDataFunc σ) (nodestack : stack) (s : σ) : Outcome σ :=
  if 0 < nodestack.length then
    match h : processTreeBody f nodestack s with
    | LoopStep.exit o => o
    | LoopStep.next nodestack3 s1 => processTreeLoop f nodestack3 s1
  else
    Outcome.finished s
termination_by stackWeight nodestack
decreasing_by
  unfold processTreeBody at h
  split at h
  · exact absurd h (by simp)
  · rename_i st1 n hpop
    have hs : nodestack = st1 ++ [n] := by
      unfold stack.Pop at hpop
      by_cases hl : 0 < nodestack.length
      · simp only [hl, ↓reduceDIte, Option.some.injEq, Prod.mk.injEq] at hpop
        obtain ⟨h1, h2⟩ := hpop
        have hne : nodestack ≠ [] := by
          intro h0
          rw [h0] at hl
          simp at hl
        have h3 := List.dropLast_append_getLast hne
        rw [List.dropLast_eq_take, List.getLast_eq_getElem] at h3
        rw [← h1, ← h2]
        exact h3.symm
      · simp [hl] at hpop
    split at h
    · exact absurd h (by simp)
    · rename_i D Left Right
      split at h
      · exact absurd h (by simp)
      · simp only [LoopStep.next.injEq] at h
        obtain ⟨h1, -⟩ := h
        subst h1 hs
        by_cases hR : Right = Node.nil <;> by_cases hL : Left = Node.nil <;>
          simp [hR, hL, stack.Push, stackWeight, Node.size] <;> omega

/-- The function `processTree`, run with the visitor's captured state `s`. -/
def processTree {σ : Type} (f : parseTreeDataFunc σ) (root : Node) (s : σ) : Outcome σ :=
  if root = Node.nil then Outcome.finished s
  else processTreeLoop f (stack.Push [] root) s

/-- What the closure returned by `getPreOrderDataVals` captures: its slice `ds` and the caller's
pointer `*pptr`, which is nil (`none`) until the first call and then points at `ds`. -/
structure PreOrderAcc where
  ds : List Data
  pptr : Option (List Data)
deriving DecidableEq, Repr

/-- The captured state when `getPreOrderDataVals(&data)` returns: `ds := make([]Data, 0)` and the
pointer `data` still nil. -/
def PreOrderAcc.new : PreOrderAcc :=
  { ds := [], pptr := none }

/-- The visitor returned by `getPreOrderDataVals`: `ds = append(ds, d); *pptr = &ds; return nil`. -/
def getPreOrderDataVals : parseTreeDataFunc PreOrderAcc :=
  fun d st =>
    let ds := st.ds ++ [d]
    ({ ds := ds, pptr := some ds }, none)

/-- The standard library function `strings.Compare`: 0 for equal strings, -1 when `a < b`,
+1 otherwise. -/
def stringsCompare (a b : String) : Int :=
  if a = b then 0 else if a < b then -1 else 1

/-- The comparison loop of `CompareTrees`, started at index `idx`; `none` is an index out of range
in `arr2`. -/
def compareLoop (arr1 arr2 : List Data) (idx : Nat) : Option Bool :=
  if h : idx < arr1.length then
    let d1 := arr1.get ⟨idx, h⟩
    match arr2.get? idx with
    | none => none
    | some d2 =>
      if d1.Key ≠ d2.Key then some false
      else if stringsCompare d1.Val d2.Val ≠ 0 then some false
      else compareLoop arr1 arr2 (idx + 1)
  else
    some true
termination_by arr1.length - idx

/-- The function `CompareTrees`; `none` means that the call does not return (a run-time failure or
`log.Fatal`). -/
def CompareTrees (tree1 tree2 : Node) : Option Bool :=
  if tree1 = Node.nil then
    if tree2 = Node.nil then some true else some false
  else if tree2 = Node.nil then some false
  else
    match processTree getPreOrderDataVals tree1 PreOrderAcc.new with
    | Outcome.finished st1 =>
      match processTree getPreOrderDataVals tree2 PreOrderAcc.new with
      | Outcome.finished st2 =>
        match st1.pptr, st2.pptr with
        | some arr1, some arr2 =>
          if arr1.length ≠ arr2.length then some false
          else compareLoop arr1 arr2 0
        | _, _ => none
      | _ => none
    | _ => none

/-! ## The codec -/

/-- Modelled from the spec: the package `encoding/gob` is a library outside the sources, so the
part of it the program uses is a parameter, over a stream of `β`: an encoder and a decoder, each
with its own state, created once per file (`gob.NewEncoder`, `gob.NewDecoder`). `Encode` returns
the bytes it writes or an error, `Decode` reads exactly one record from the current position of
the remaining input and returns what is left, or returns an error (`io.EOF` at the clean end of
the stream, another error for malformed data); a successful `Decode` advances the position. -/
structure GobCodec (β : Type) where
  EncState : Type
  DecState : Type
  NewEncoder : EncState
  NewDecoder : DecState
  Encode : EncState → Data → Except GoError (EncState × List β)
  Decode : DecState → List β → Except GoError (Data × DecState × List β)
  consumes : ∀ dec inp d dec1 rest,
    Decode dec inp = Except.ok (d, dec1, rest) → rest.length < inp.length

/-- The visitor returned by `encodeTreeFunc`: it captures the encoder and the file written so
far, and returns the error of `enc.Encode(d)`. -/
def encodeTreeFunc {β : Type} (c : GobCodec β) : parseTreeDataFunc (c.EncState × List β) :=
  fun d st =>
    match c.Encode st.1 d with
    | Except.ok (enc1, bytes) => ((enc1, st.2 ++ bytes), none)
    | Except.error e => (st, some e)

/-- The function `EncodeIntoFile`, on a file holding `f`. -/
def EncodeIntoFile {β : Type} (c : GobCodec β) (f : List β) (root : Node) :
    Outcome (c.EncState × List β) :=
  processTree (encodeTreeFunc c) root (c.NewEncoder, f)

/-- The loop of `DecodeFile`: decode, `break` when `err != nil` whatever the error is, append
otherwise. -/
def DecodeFileLoop {β : Type} (c : GobCodec β) (dec : c.DecState) (f : List β)
    (outputDataSlice : List Data) : List Data :=
  match h : c.Decode dec f with
  | Except.error _ => outputDataSlice
  | Except.ok (d, dec1, rest) => DecodeFileLoop c dec1 rest (outputDataSlice ++ [d])
termination_by f.length
decreasing_by exact c.consumes _ _ _ _ _ h

/-- The function `DecodeFile`, on a file whose unread content is `f`. -/
def DecodeFile {β : Type} (c : GobCodec β) (f : List β) : List Data :=
  DecodeFileLoop c c.NewDecoder f []

/-- Modelled from the spec: the round-trip law required of the codec (decoding is the exact
left inverse of a self-delimiting encoding, and the exhausted stream is reported). Some relation
between encoder and decoder states holds at creation and is kept by encoding a record and
decoding what was written, which gives the record back and leaves the following bytes; encoding
succeeds and decoding the empty input fails. -/
def GobCodec.RoundTrip {β : Type} (c : GobCodec β) : Prop :=
  ∃ R : c.EncState → c.DecState → Prop,
    R c.NewEncoder c.NewDecoder ∧
    (∀ enc dec d, R enc dec → ∃ enc1 bytes dec1,
      c.Encode enc d = Except.ok (enc1, bytes) ∧ R enc1 dec1 ∧
      ∀ rest, c.Decode dec (bytes ++ rest) = Except.ok (d, dec1, rest)) ∧
    (∀ enc dec, R enc dec → ∃ e, c.Decode dec [] = Except.error e)

/-! ## Specification-side definitions -/

/-- The recursive pre-order sequence: the node, then its left subtree, then its right subtree. -/
def preorder : Node → List Data
  | Node.nil => []
  | Node.node d l r => d :: (preorder l ++ preorder r)

/-- The BST invariant: at every node the keys of the left subtree are strictly less than the
node's key and the keys of the right subtree strictly greater. -/
def BST : Node → Prop
  | Node.nil => True
  | Node.node d l r =>
    (∀ x ∈ preorder l, x.Key < d.Key) ∧ (∀ x ∈ preorder r, d.Key < x.Key) ∧ BST l ∧ BST r

instance BST.decidable : (t : Node) → Decidable (BST t)
  | Node.nil => isTrue trivial
  | Node.node d l r =>
    let _ := BST.decidable l
    let _ := BST.decidable r
    (inferInstance : Decidable ((∀ x ∈ preorder l, x.Key < d.Key) ∧
      (∀ x ∈ preorder r, d.Key < x.Key) ∧ BST l ∧ BST r))

/-- Running a visitor over a sequence of records in order, stopping at the first failure. -/
def visitAll {σ : Type} (f : parseTreeDataFunc σ) : List Data → σ → Outcome σ
  | [], s => Outcome.finished s
  | d :: rest, s =>
    match f d s with
    | (s1, none) => visitAll f rest s1
    | (s1, some e) => Outcome.fatal e s1

/-- What a caller that runs `var data *[]Data; processTree(getPreOrderDataVals(&data), root)`
holds in `data` afterwards: `some` of the slice the pointer points at, or `none` when the pointer
is still nil (no sequence can be read through it: `*data` fails) or the call did not return. The
slice `ds` of the closure is reachable through this pointer only. -/
def collectPreOrder (root : Node) : Option (List Data) :=
  match processTree getPreOrderDataVals root PreOrderAcc.new with
  | Outcome.finished st => st.pptr
  | _ => none

/-- Two trees of the same shape that hold the same record at every position except one, where
the records differ in key or in value. -/
inductive DiffersAtOne : Node → Node → Prop where
  | here (d1 d2 : Data) (l r : Node) (h : d1.Key ≠ d2.Key ∨ d1.Val ≠ d2.Val) :
      DiffersAtOne (Node.node d1 l r) (Node.node d2 l r)
  | left (d : Data) (l1 l2 r : Node) (h : DiffersAtOne l1 l2) :
      DiffersAtOne (Node.node d l1 r) (Node.node d l2 r)
  | right (d : Data) (l r1 r2 : Node) (h : DiffersAtOne r1 r2) :
      DiffersAtOne (Node.node d l r1) (Node.node d l r2)

/-- The records built by `main` and by the tests: keys 10, 7, 4, 1, 5, 9, 17, 15, 20, 30, each with
the decimal text of the key as value. -/
def sampleRecords : List Data :=
  [⟨10, "10"⟩, ⟨7, "7"⟩, ⟨4, "4"⟩, ⟨1, "1"⟩, ⟨5, "5"⟩, ⟨9, "9"⟩, ⟨17, "17"⟩, ⟨15, "15"⟩,
    ⟨20, "20"⟩, ⟨30, "30"⟩]

/-- The tree `main` builds. -/
def sampleTree : Node :=
  MakeTree (some sampleRecords)

/-- A codec over a stream of whole records, each record being its own encoding: the simplest
instance of the codec interface. -/
def recordCodec : GobCodec Data where
  EncState := Unit
  DecState := Unit
  NewEncoder := ()
  NewDecoder := ()
  Encode := fun _ d => Except.ok ((), [d])
  Decode := fun _ inp =>
    match inp with
    | [] => Except.error "EOF"
    | d :: rest => Except.ok (d, (), rest)
  consumes := by
    intro dec inp d dec1 rest h
    cases inp with
    | nil => exact absurd h (by simp)
    | cons a tail =>
      simp only [Except.ok.injEq, Prod.mk.injEq] at h
      rw [← h.2.2]
      simp

/-- Sequencing of outcomes: continue with `k` from the state of a call that returned. -/
def Outcome.andThen {σ : Type} (o : Outcome σ) (k : σ → Outcome σ) : Outcome σ :=
  match o with
  | Outcome.finished s => k s
  | Outcome.fatal e s => Outcome.fatal e s
  | Outcome.crashed => Outcome.crashed

/-- Whether a call gives control back to its caller: `log.Fatal` ends the process and so does a
run-time failure, so `processTree`, which has no result value, returns only when it finished. -/
def Outcome.returnsToCaller {σ : Type} : Outcome σ → Bool
  | Outcome.finished _ => true
  | Outcome.fatal _ _ => false
  | Outcome.crashed => false

/-- A visitor instrumented with the list of the records it has been invoked on. -/
def traceVisits {σ : Type} (f : parseTreeDataFunc σ) : parseTreeDataFunc (σ × List Data) :=
  fun d st => (((f d st.1).1, st.2 ++ [d]), (f d st.1).2)

/-- A visitor that records the keys it is given and reports a failure on the key `k`. -/
def failOnKey (k : Int) : parseTreeDataFunc (List Int) :=
  fun d seen => if d.Key = k then (seen, some "failure") else (seen ++ [d.Key], none)

/-- The record held by the root node, if there is one. -/
def rootData : Node → Option Data
  | Node.nil => none
  | Node.node D _ _ => some D

/-- The height of a tree: the number of nodes on the longest path from the root to a leaf. -/
def Node.height : Node → Nat
  | Node.nil => 0
  | Node.node _ l r => 1 + max l.height r.height

/-- The stack and the visitor state at the head of the loop of `processTree` after `k` full
iterations, started from `nodestack` and `s`; `none` when the loop has ended before. -/
def processTreeIter {σ : Type} (f : parseTreeDataFunc σ) : Nat → stack → σ → Option (stack × σ)
  | 0, nodestack, s => some (nodestack, s)
  | k + 1, nodestack, s =>
    if 0 < nodestack.length then
      match processTreeBody f nodestack s with
      | LoopStep.exit _ => none
      | LoopStep.next nodestack3 s1 => processTreeIter f k nodestack3 s1
    else
      none

/-- The loop of `addtotree` with a counter of its iterations: the first component is the subtree
rooted at `parent` after the loop, the second the number of times the loop body ran. -/
def addtotreeLoopCount (d : Data) (newn : Node) : Node → Node × Nat
  | Node.nil => (Node.nil, 0)
  | Node.node pd l r =>
    if d.Key < pd.Key then
      if l ≠ Node.nil then
        (Node.node pd (addtotreeLoopCount d newn l).1 r, (addtotreeLoopCount d newn l).2 + 1)
      else (Node.node pd newn r, 1)
    else if d.Key > pd.Key then
      if r ≠ Node.nil then
        (Node.node pd l (addtotreeLoopCount d newn r).1, (addtotreeLoopCount d newn r).2 + 1)
      else (Node.node pd l newn, 1)
    else
      (Node.node pd l r, 1)

/-- The function `addtotree` with the number of iterations of its loop (none on the nil root,
where the function returns before the loop). -/
def addtotreeCount (root : Node) (d : Data) : Node × Nat :=
  let newn := newnode d
  if root = Node.nil then (newn, 0)
  else addtotreeLoopCount d newn root

/-- The sequence of outcomes of the successive `Decode` calls on a file: the calls succeed with
the records `ds`, in this order, and the next call fails with the error `e`. -/
inductive DecodeRun {β : Type} (c : GobCodec β) : c.DecState → List β → List Data → GoError → Prop
  | fails (dec : c.DecState) (f : List β) (e : GoError) (h : c.Decode dec f = Except.error e) :
      DecodeRun c dec f [] e
  | decodes (dec dec1 : c.DecState) (f rest : List β) (d : Data) (ds : List Data) (e : GoError)
      (h : c.Decode dec f = Except.ok (d, dec1, rest)) (hrest : DecodeRun c dec1 rest ds e) :
      DecodeRun c dec f (d :: ds) e

/-- A codec over a stream whose items are the outcomes of the successive `Decode` calls: a record
is decoded, an error is reported; past the last item the decoder reports `EOF`. -/
def outcomeCodec : GobCodec (Except GoError Data) where
  EncState := Unit
  DecState := Unit
  NewEncoder := ()
  NewDecoder := ()
  Encode := fun _ d => Except.ok ((), [Except.ok d])
  Decode := fun _ inp =>
    match inp with
    | [] => Except.error "EOF"
    | Except.error e :: _ => Except.error e
    | Except.ok d :: rest => Except.ok (d, (), rest)
  consumes := by
    intro dec inp d dec1 rest h
    match inp, h with
    | Except.ok d2 :: tail, h =>
      simp only [Except.ok.injEq, Prod.mk.injEq] at h
      rw [← h.2.2]
      simp

/-- A tree in which no node has a left child: a chain along the right links. -/
def NoLeftChild : Node → Prop
  | Node.nil => True
  | Node.node _ l r => l = Node.nil ∧ NoLeftChild r

/-- The tree `t1` is the tree `t` with one new leaf holding `d` attached at a link that was nil;
every node of `t` keeps its record and its children. -/
inductive AddsLeaf (d : Data) : Node → Node → Prop
  | here : AddsLeaf d Node.nil (Node.node d Node.nil Node.nil)
  | left (pd : Data) (l l1 r : Node) (h : AddsLeaf d l l1) :
      AddsLeaf d (Node.node pd l r) (Node.node pd l1 r)
  | right (pd : Data) (l r r1 : Node) (h : AddsLeaf d r r1) :
      AddsLeaf d (Node.node pd l r) (Node.node pd l r1)

/-- The records of a sequence of decode outcomes that come before its first failure. -/
def recordsBeforeFirstFailure : List (Except GoError Data) → List Data
  | [] => []
  | Except.error _ :: _ => []
  | Except.ok d :: rest => d :: recordsBeforeFirstFailure rest

/-- The bound kept by the stack of `processTree` on a tree of height `H`: no reference is nil,
and the reference at position `i` (from the bottom, positions counted from `i`) is the root of a
subtree of height at most `H - i`. -/
def stackWithin (H : Nat) : Nat → stack → Prop
  | _, [] => True
  | i, n :: rest => n ≠ Node.nil ∧ i + n.height ≤ H ∧ stackWithin H (i + 1) rest

/-! ## The stack and the traversal loop -/

theorem stack.Pop_Push (s : stack) (v : Node) : stack.Pop (stack.Push s v) = some (s, v) := by
  unfold stack.Pop stack.Push
  simp

theorem stack.Pop_append_singleton (s : stack) (v : Node) : stack.Pop (s ++ [v]) = some (s, v) :=
  stack.Pop_Push s v

theorem processTreeLoop_nil {σ : Type} (f : parseTreeDataFunc σ) (s : σ) :
    processTreeLoop f [] s = Outcome.finished s := by
  rw [processTreeLoop]
  simp

/-- One iteration of the loop on a stack whose top is a node. -/
theorem processTreeLoop_top {σ : Type} (f : parseTreeDataFunc σ) (st : stack) (D : Data)
    (L R : Node) (s : σ) :
    processTreeLoop f (st ++ [Node.node D L R]) s =
      match f D s with
      | (s1, some e) => Outcome.fatal e s1
      | (s1, none) =>
        processTreeLoop f
          ((st ++ if R ≠ Node.nil then [R] else []) ++ if L ≠ Node.nil then [L] else []) s1 := by
  rw [processTreeLoop]
  have hb : processTreeBody f (st ++ [Node.node D L R]) s =
      match f D s with
      | (s1, some e) => LoopStep.exit (Outcome.fatal e s1)
      | (s1, none) => LoopStep.next
          ((st ++ if R ≠ Node.nil then [R] else []) ++ if L ≠ Node.nil then [L] else []) s1 := by
    unfold processTreeBody
    rw [stack.Pop_append_singleton]
    simp only
    rcases hf : f D s with ⟨s1, _ | e⟩
    · by_cases hR : R = Node.nil <;> by_cases hL : L = Node.nil <;> simp [hR, hL, stack.Push]
    · simp
  rw [if_pos (by simp)]
  split
  · rename_i o ho
    rw [hb] at ho
    rcases hf : f D s with ⟨s1, _ | e⟩
    · rw [hf] at ho; simp at ho
    · rw [hf] at ho; simp only [LoopStep.exit.injEq] at ho; simp [ho]
  · rename_i st3 s3 ho
    rw [hb] at ho
    rcases hf : f D s with ⟨s1, _ | e⟩
    · rw [hf] at ho
      simp only [LoopStep.next.injEq] at ho
      obtain ⟨h1, h2⟩ := ho
      subst h1 h2
      rfl
    · rw [hf] at ho; simp at ho

theorem Outcome.andThen_assoc {σ : Type} (o : Outcome σ) (k1 k2 : σ → Outcome σ) :
    (o.andThen k1).andThen k2 = o.andThen (fun s => (k1 s).andThen k2) := by
  cases o <;> rfl

theorem Outcome.andThen_finished {σ : Type} (o : Outcome σ) :
    o.andThen Outcome.finished = o := by
  cases o <;> rfl

theorem visitAll_append {σ : Type} (f : parseTreeDataFunc σ) (xs ys : List Data) (s : σ) :
    visitAll f (xs ++ ys) s = (visitAll f xs s).andThen (visitAll f ys) := by
  induction xs generalizing s with
  | nil => rfl
  | cons d rest ih =>
    simp only [List.cons_append, visitAll]
    rcases hf : f d s with ⟨s1, _ | e⟩
    · exact ih s1
    · rfl

/-- Running the loop with a subtree on top of the stack visits the pre-order sequence of that
subtree and then continues with the rest of the stack. -/
theorem processTreeLoop_subtree {σ : Type} (f : parseTreeDataFunc σ) (t : Node) :
    ∀ (st : stack) (s : σ),
      processTreeLoop f (st ++ if t ≠ Node.nil then [t] else []) s =
        (visitAll f (preorder t) s).andThen (processTreeLoop f st) := by
  induction t with
  | nil =>
    intro st s
    simp [preorder, visitAll, Outcome.andThen]
  | node D L R ihL ihR =>
    intro st s
    rw [if_pos (by simp), processTreeLoop_top]
    simp only [preorder, visitAll]
    rcases hf : f D s with ⟨s1, _ | e⟩
    · simp only
      rw [ihL, visitAll_append, Outcome.andThen_assoc]
      congr 1
      funext s2
      exact ihR st s2
    · rfl

/-- The traversal of `processTree` is the in-order run of the visitor over the recursive
pre-order sequence, for every visitor. -/
theorem processTree_eq_visitAll {σ : Type} (f : parseTreeDataFunc σ) (t : Node) (s : σ) :
    processTree f t s = visitAll f (preorder t) s := by
  unfold processTree
  by_cases ht : t = Node.nil
  · subst ht
    simp [preorder, visitAll]
  · rw [if_neg ht]
    have h := processTreeLoop_subtree f t [] s
    rw [if_pos ht] at h
    simp only [stack.Push]
    rw [h]
    have hk : processTreeLoop f [] = Outcome.finished := by
      funext s2
      exact processTreeLoop_nil f s2
    rw [hk, Outcome.andThen_finished]

theorem visitAll_of_never_fails {σ : Type} (f : parseTreeDataFunc σ)
    (hf : ∀ d s, (f d s).2 = none) (xs : List Data) (s : σ) :
    visitAll f xs s = Outcome.finished (xs.foldl (fun acc d => (f d acc).1) s) := by
  induction xs generalizing s with
  | nil => rfl
  | cons d rest ih =>
    simp only [visitAll, List.foldl_cons]
    have h2 := hf d s
    rcases hfd : f d s with ⟨s1, oe⟩
    rw [hfd] at h2
    simp only at h2
    subst h2
    simp only
    rw [ih]

theorem visitAll_getPreOrderDataVals (xs : List Data) (st : PreOrderAcc) :
    visitAll getPreOrderDataVals xs st =
      Outcome.finished
        { ds := st.ds ++ xs, pptr := if xs = [] then st.pptr else some (st.ds ++ xs) } := by
  induction xs generalizing st with
  | nil => simp [visitAll]
  | cons d rest ih =>
    simp only [visitAll, getPreOrderDataVals]
    rw [ih]
    by_cases hr : rest = [] <;> simp [hr]

theorem processTree_getPreOrderDataVals (t : Node) :
    processTree getPreOrderDataVals t PreOrderAcc.new =
      Outcome.finished
        { ds := preorder t, pptr := if t = Node.nil then none else some (preorder t) } := by
  rw [processTree_eq_visitAll, visitAll_getPreOrderDataVals]
  cases t <;> simp [PreOrderAcc.new, preorder]

theorem collectPreOrder_eq (t : Node) :
    collectPreOrder t = if t = Node.nil then none else some (preorder t) := by
  unfold collectPreOrder
  rw [processTree_getPreOrderDataVals]

theorem collectPreOrder_of_ne_nil {t : Node} (h : t ≠ Node.nil) :
    collectPreOrder t = some (preorder t) := by
  rw [collectPreOrder_eq, if_neg h]

/-! ## Insertion -/

theorem addtotree_nil (d : Data) : addtotree Node.nil d = newnode d := by
  simp [addtotree]

/-- The loop of `addtotree` seen from the root: the walk continues in the left or right subtree
as an insertion into that subtree. -/
theorem addtotree_node (pd : Data) (l r : Node) (d : Data) :
    addtotree (Node.node pd l r) d =
      if d.Key < pd.Key then Node.node pd (addtotree l d) r
      else if d.Key > pd.Key then Node.node pd l (addtotree r d)
      else Node.node pd l r := by
  simp only [addtotree, addtotreeLoop]
  rw [if_neg (by simp)]
  by_cases h1 : d.Key < pd.Key
  · simp only [h1, if_true]
    by_cases hl : l = Node.nil <;> simp [hl]
  · simp only [h1, if_false]
    by_cases h2 : d.Key > pd.Key
    · simp only [h2, if_true]
      by_cases hr : r = Node.nil <;> simp [hr]
    · simp only [h2, if_false]

theorem mem_preorder_addtotree {t : Node} {d x : Data} (h : x ∈ preorder (addtotree t d)) :
    x ∈ preorder t ∨ x = d := by
  induction t with
  | nil =>
    rw [addtotree_nil] at h
    simp [newnode, preorder] at h
    exact Or.inr h
  | node pd l r ihl ihr =>
    rw [addtotree_node] at h
    split at h
    · simp only [preorder, List.mem_cons, List.mem_append] at h ⊢
      rcases h with h | h | h
      · exact Or.inl (Or.inl h)
      · rcases ihl h with h | h
        · exact Or.inl (Or.inr (Or.inl h))
        · exact Or.inr h
      · exact Or.inl (Or.inr (Or.inr h))
    · split at h
      · simp only [preorder, List.mem_cons, List.mem_append] at h ⊢
        rcases h with h | h | h
        · exact Or.inl (Or.inl h)
        · exact Or.inl (Or.inr (Or.inl h))
        · rcases ihr h with h | h
          · exact Or.inl (Or.inr (Or.inr h))
          · exact Or.inr h
      · exact Or.inl h

theorem preorder_subset_addtotree {t : Node} {d x : Data} (h : x ∈ preorder t) :
    x ∈ preorder (addtotree t d) := by
  induction t with
  | nil => simp [preorder] at h
  | node pd l r ihl ihr =>
    rw [addtotree_node]
    simp only [preorder, List.mem_cons, List.mem_append] at h
    split
    · simp only [preorder, List.mem_cons, List.mem_append]
      rcases h with h | h | h
      · exact Or.inl h
      · exact Or.inr (Or.inl (ihl h))
      · exact Or.inr (Or.inr h)
    · split
      · simp only [preorder, List.mem_cons, List.mem_append]
        rcases h with h | h | h
        · exact Or.inl h
        · exact Or.inr (Or.inl h)
        · exact Or.inr (Or.inr (ihr h))
      · simp only [preorder, List.mem_cons, List.mem_append]
        exact h

/-- Insertion keeps the BST invariant. -/
theorem BST_addtotree {t : Node} (d : Data) (h : BST t) : BST (addtotree t d) := by
  induction t with
  | nil =>
    rw [addtotree_nil]
    simp [newnode, BST, preorder]
  | node pd l r ihl ihr =>
    obtain ⟨hl, hr, bl, br⟩ := h
    rw [addtotree_node]
    split
    · rename_i hlt
      refine ⟨?_, hr, ihl bl, br⟩
      intro x hx
      rcases mem_preorder_addtotree hx with hx | hx
      · exact hl x hx
      · rw [hx]; exact hlt
    · split
      · rename_i hgt
        refine ⟨hl, ?_, bl, ihr br⟩
        intro x hx
        rcases mem_preorder_addtotree hx with hx | hx
        · exact hr x hx
        · rw [hx]; exact hgt
      · exact ⟨hl, hr, bl, br⟩

theorem BST_MakeTreeLoop (xs : List Data) {root : Node} (h : BST root) :
    BST (MakeTreeLoop xs root) := by
  induction xs generalizing root with
  | nil => exact h
  | cons d rest ih => exact ih (BST_addtotree d h)

/-- In a BST, inserting a key that is already there changes nothing. -/
theorem addtotree_of_key_mem {t : Node} {d : Data} (h : BST t)
    (hk : ∃ x ∈ preorder t, x.Key = d.Key) : addtotree t d = t := by
  induction t with
  | nil =>
    obtain ⟨x, hx, -⟩ := hk
    simp [preorder] at hx
  | node pd l r ihl ihr =>
    obtain ⟨hl, hr, bl, br⟩ := h
    obtain ⟨x, hx, hxk⟩ := hk
    rw [addtotree_node]
    simp only [preorder, List.mem_cons, List.mem_append] at hx
    split
    · rename_i hlt
      rcases hx with hx | hx | hx
      · rw [hx] at hxk; omega
      · rw [ihl bl ⟨x, hx, hxk⟩]
      · have := hr x hx; omega
    · split
      · rename_i hgt
        rcases hx with hx | hx | hx
        · rw [hx] at hxk; omega
        · have := hl x hx; omega
        · rw [ihr br ⟨x, hx, hxk⟩]
      · rfl

theorem MakeTreeLoop_append (xs ys : List Data) (root : Node) :
    MakeTreeLoop (xs ++ ys) root = MakeTreeLoop ys (MakeTreeLoop xs root) := by
  induction xs generalizing root with
  | nil => rfl
  | cons d rest ih => exact ih (addtotree root d)

theorem MakeTreeLoop_left (xs : List Data) (pd : Data) (l r : Node)
    (h : ∀ x ∈ xs, x.Key < pd.Key) :
    MakeTreeLoop xs (Node.node pd l r) = Node.node pd (MakeTreeLoop xs l) r := by
  induction xs generalizing l with
  | nil => rfl
  | cons d rest ih =>
    simp only [MakeTreeLoop]
    rw [addtotree_node, if_pos (h d (List.mem_cons_self d rest))]
    exact ih (addtotree l d) (fun x hx => h x (List.mem_cons_of_mem d hx))

theorem MakeTreeLoop_right (xs : List Data) (pd : Data) (l r : Node)
    (h : ∀ x ∈ xs, pd.Key < x.Key) :
    MakeTreeLoop xs (Node.node pd l r) = Node.node pd l (MakeTreeLoop xs r) := by
  induction xs generalizing r with
  | nil => rfl
  | cons d rest ih =>
    simp only [MakeTreeLoop]
    have hd := h d (List.mem_cons_self d rest)
    rw [addtotree_node, if_neg (by omega), if_pos hd]
    exact ih (addtotree r d) (fun x hx => h x (List.mem_cons_of_mem d hx))

/-- Inserting the pre-order sequence of a BST into the empty tree rebuilds the BST. -/
theorem MakeTreeLoop_preorder {t : Node} (h : BST t) : MakeTreeLoop (preorder t) Node.nil = t := by
  induction t with
  | nil => rfl
  | node pd l r ihl ihr =>
    obtain ⟨hl, hr, bl, br⟩ := h
    simp only [preorder, MakeTreeLoop]
    rw [addtotree_nil, newnode, MakeTreeLoop_append, MakeTreeLoop_left _ _ _ _ hl, ihl bl,
      MakeTreeLoop_right _ _ _ _ hr, ihr br]

theorem size_eq_length_preorder (t : Node) : t.size = (preorder t).length := by
  induction t with
  | nil => rfl
  | node d l r ihl ihr =>
    simp only [Node.size, preorder, List.length_cons, List.length_append, ihl, ihr]
    omega

/-- After an insertion the key of the record is held by the tree. -/
theorem key_mem_addtotree (t : Node) (d : Data) :
    ∃ x ∈ preorder (addtotree t d), x.Key = d.Key := by
  induction t with
  | nil =>
    rw [addtotree_nil]
    exact ⟨d, by simp [newnode, preorder], rfl⟩
  | node pd l r ihl ihr =>
    rw [addtotree_node]
    split
    · obtain ⟨x, hx, hk⟩ := ihl
      exact ⟨x, by simp [preorder, hx], hk⟩
    · split
      · obtain ⟨x, hx, hk⟩ := ihr
        exact ⟨x, by simp [preorder, hx], hk⟩
      · exact ⟨pd, by simp [preorder], by omega⟩

/-- A record found in a BST after an insertion was there before, or it is the inserted record
and its key was not in the tree. -/
theorem mem_preorder_addtotree_of_BST {t : Node} {d x : Data} (h : BST t)
    (hx : x ∈ preorder (addtotree t d)) :
    x ∈ preorder t ∨ (x = d ∧ ∀ y ∈ preorder t, y.Key ≠ d.Key) := by
  by_cases hk : ∃ y ∈ preorder t, y.Key = d.Key
  · rw [addtotree_of_key_mem h hk] at hx
    exact Or.inl hx
  · rcases mem_preorder_addtotree hx with hx | hx
    · exact Or.inl hx
    · refine Or.inr ⟨hx, ?_⟩
      intro y hy hyk
      exact hk ⟨y, hy, hyk⟩

/-- No two nodes of a BST hold the same key. -/
theorem BST_keys_nodup {t : Node} (h : BST t) : ((preorder t).map Data.Key).Nodup := by
  induction t with
  | nil => simp [preorder]
  | node d l r ihl ihr =>
    obtain ⟨hl, hr, bl, br⟩ := h
    simp only [preorder, List.map_cons, List.map_append, List.nodup_cons, List.mem_append,
      List.mem_map, not_or, not_exists, not_and]
    refine ⟨⟨?_, ?_⟩, ?_⟩
    · intro x hx hk
      have := hl x hx
      omega
    · intro x hx hk
      have := hr x hx
      omega
    · rw [List.nodup_append]
      refine ⟨ihl bl, ihr br, ?_⟩
      intro k hk1 hk2
      simp only [List.mem_map] at hk1 hk2
      obtain ⟨x, hx, hxk⟩ := hk1
      obtain ⟨y, hy, hyk⟩ := hk2
      have h1 := hl x hx
      have h2 := hr y hy
      omega

/-- The keys held after the insertion loop are those of the starting tree and of the input. -/
theorem keys_MakeTreeLoop (xs : List Data) (root : Node) (k : Int) :
    k ∈ (preorder (MakeTreeLoop xs root)).map Data.Key ↔
      k ∈ (preorder root).map Data.Key ∨ k ∈ xs.map Data.Key := by
  induction xs generalizing root with
  | nil => simp [MakeTreeLoop]
  | cons d rest ih =>
    simp only [MakeTreeLoop, List.map_cons, List.mem_cons]
    rw [ih]
    constructor
    · rintro (h | h)
      · simp only [List.mem_map] at h
        obtain ⟨x, hx, hxk⟩ := h
        rcases mem_preorder_addtotree hx with hx | hx
        · exact Or.inl (List.mem_map.mpr ⟨x, hx, hxk⟩)
        · rw [hx] at hxk
          exact Or.inr (Or.inl hxk.symm)
      · exact Or.inr (Or.inr h)
    · rintro (h | h | h)
      · simp only [List.mem_map] at h
        obtain ⟨x, hx, hxk⟩ := h
        exact Or.inl (List.mem_map.mpr ⟨x, preorder_subset_addtotree hx, hxk⟩)
      · obtain ⟨x, hx, hxk⟩ := key_mem_addtotree root d
        exact Or.inl (List.mem_map.mpr ⟨x, hx, by rw [hxk, h]⟩)
      · exact Or.inr h

/-- A record held after the insertion loop was in the starting tree, or its key was not and it
is the first record of the input with its key. -/
theorem mem_preorder_MakeTreeLoop (xs : List Data) {root : Node} (h : BST root) {x : Data}
    (hx : x ∈ preorder (MakeTreeLoop xs root)) :
    x ∈ preorder root ∨
      ((∀ y ∈ preorder root, y.Key ≠ x.Key) ∧
        xs.find? (fun r => decide (r.Key = x.Key)) = some x) := by
  induction xs generalizing root with
  | nil => exact Or.inl hx
  | cons d rest ih =>
    simp only [MakeTreeLoop] at hx
    rcases ih (BST_addtotree d h) hx with h1 | ⟨h1, h2⟩
    · rcases mem_preorder_addtotree_of_BST h h1 with h3 | ⟨h3, h4⟩
      · exact Or.inl h3
      · subst h3
        exact Or.inr ⟨h4, by simp⟩
    · right
      constructor
      · intro y hy
        exact h1 y (preorder_subset_addtotree hy)
      · obtain ⟨y, hy, hyk⟩ := key_mem_addtotree root d
        have hne : d.Key ≠ x.Key := by
          rw [← hyk]
          exact h1 y hy
        rw [List.find?_cons_of_neg _ (by simpa using hne)]
        exact h2

/-- On a non-empty tree that satisfies the BST invariant, the sequence that `processTree`
leaves behind the pointer of the accumulating visitor is rebuilt by `MakeTree` into the tree. -/
theorem MakeTree_collectPreOrder_of_ne_nil {t : Node} (hb : BST t) (hn : t ≠ Node.nil) :
    ∃ seq, collectPreOrder t = some seq ∧ MakeTree (some seq) = t :=
  ⟨preorder t, collectPreOrder_of_ne_nil hn, MakeTreeLoop_preorder hb⟩

/-- For every tree that satisfies the BST invariant, the empty one included, `MakeTree` of the
recursive pre-order sequence is the tree. -/
theorem MakeTree_preorder {t : Node} (hb : BST t) : MakeTree (some (preorder t)) = t :=
  MakeTreeLoop_preorder hb

/-! ## Comparison -/

theorem stringsCompare_eq_zero_iff (a b : String) : stringsCompare a b = 0 ↔ a = b := by
  unfold stringsCompare
  by_cases h : a = b
  · simp [h]
  · by_cases h2 : a < b <;> simp [h, h2]

theorem Data.ext_iff_fields (d1 d2 : Data) : d1 = d2 ↔ d1.Key = d2.Key ∧ d1.Val = d2.Val := by
  cases d1
  cases d2
  simp

/-- The comparison loop on slices of equal length decides the equality of what is left from
index `idx` on. -/
theorem compareLoop_eq (arr1 arr2 : List Data) (hlen : arr1.length = arr2.length) :
    ∀ (n idx : Nat), arr1.length - idx = n →
      compareLoop arr1 arr2 idx = some (decide (arr1.drop idx = arr2.drop idx)) := by
  intro n
  induction n with
  | zero =>
    intro idx hn
    rw [compareLoop]
    have h1 : ¬ idx < arr1.length := by omega
    rw [dif_neg h1]
    rw [List.drop_eq_nil_of_le (by omega), List.drop_eq_nil_of_le (by omega)]
    simp
  | succ n ih =>
    intro idx hn
    rw [compareLoop]
    have h1 : idx < arr1.length := by omega
    have h2 : idx < arr2.length := by omega
    rw [dif_pos h1]
    simp only [List.get?_eq_getElem?, List.getElem?_eq_getElem h2, List.get_eq_getElem]
    have key : (arr1.drop idx = arr2.drop idx) ↔
        (arr1[idx] = arr2[idx] ∧ arr1.drop (idx + 1) = arr2.drop (idx + 1)) := by
      rw [List.drop_eq_getElem_cons h1, List.drop_eq_getElem_cons h2, List.cons.injEq]
    by_cases hk : arr1[idx].Key = arr2[idx].Key
    · by_cases hv : arr1[idx].Val = arr2[idx].Val
      · have hd : arr1[idx] = arr2[idx] := (Data.ext_iff_fields _ _).mpr ⟨hk, hv⟩
        have hs : stringsCompare arr1[idx].Val arr2[idx].Val = 0 :=
          (stringsCompare_eq_zero_iff _ _).mpr hv
        simp only [hk, hs, ne_eq, not_true_eq_false, if_false]
        rw [ih (idx + 1) (by omega)]
        simp only [key, hd, true_and]
      · have hd : arr1[idx] ≠ arr2[idx] := fun h => hv (congrArg Data.Val h)
        have hs : stringsCompare arr1[idx].Val arr2[idx].Val ≠ 0 :=
          fun h => hv ((stringsCompare_eq_zero_iff _ _).mp h)
        simp only [hk, hs, ne_eq, not_true_eq_false, not_false_eq_true, if_true, if_false, key, hd,
          false_and, decide_False]
    · have hd : arr1[idx] ≠ arr2[idx] := fun h => hk (congrArg Data.Key h)
      simp only [hk, ne_eq, not_false_eq_true, if_true, key, hd, false_and, decide_False]

/-- On two non-empty trees `CompareTrees` returns, and its result is the equality of the two
pre-order sequences. -/
theorem CompareTrees_of_ne_nil {a b : Node} (ha : a ≠ Node.nil) (hb : b ≠ Node.nil) :
    CompareTrees a b = some (decide (preorder a = preorder b)) := by
  unfold CompareTrees
  rw [if_neg ha, if_neg hb, processTree_getPreOrderDataVals, processTree_getPreOrderDataVals]
  simp only [if_neg ha, if_neg hb]
  by_cases hlen : (preorder a).length = (preorder b).length
  · rw [if_neg (by simpa using hlen), compareLoop_eq _ _ hlen _ 0 rfl]
    simp
  · rw [if_pos hlen]
    have : preorder a ≠ preorder b := fun h => hlen (congrArg List.length h)
    simp [this]

theorem preorder_ne_nil {t : Node} (h : t ≠ Node.nil) : preorder t ≠ [] := by
  cases t with
  | nil => exact absurd rfl h
  | node d l r => simp [preorder]

theorem DiffersAtOne.preorder_ne {a b : Node} (h : DiffersAtOne a b) :
    preorder a ≠ preorder b := by
  induction h with
  | here d1 d2 l r h =>
    intro he
    simp only [preorder, List.cons.injEq] at he
    rcases h with h | h
    · exact h (congrArg Data.Key he.1)
    · exact h (congrArg Data.Val he.1)
  | left d l1 l2 r _ ih =>
    intro he
    simp only [preorder, List.cons.injEq, true_and, List.append_left_inj] at he
    exact ih he
  | right d l r1 r2 _ ih =>
    intro he
    simp only [preorder, List.cons.injEq, true_and, List.append_right_inj] at he
    exact ih he

theorem CompareTrees_self (t : Node) : CompareTrees t t = some true := by
  by_cases ht : t = Node.nil
  · subst ht
    simp [CompareTrees]
  · rw [CompareTrees_of_ne_nil ht ht]
    simp

/-! ## Encoding and decoding -/

theorem DecodeFileLoop_of_error {β : Type} (c : GobCodec β) (dec : c.DecState) (f : List β)
    (out : List Data) {e : GoError} (h : c.Decode dec f = Except.error e) :
    DecodeFileLoop c dec f out = out := by
  rw [DecodeFileLoop]
  split
  · rfl
  · rename_i d dec1 rest h2
    rw [h] at h2
    exact absurd h2 (by simp)

theorem DecodeFileLoop_of_ok {β : Type} (c : GobCodec β) (dec : c.DecState) (f : List β)
    (out : List Data) {d : Data} {dec1 : c.DecState} {rest : List β}
    (h : c.Decode dec f = Except.ok (d, dec1, rest)) :
    DecodeFileLoop c dec f out = DecodeFileLoop c dec1 rest (out ++ [d]) := by
  rw [DecodeFileLoop]
  split
  · rename_i h2
    rw [h] at h2
    exact absurd h2 (by simp)
  · rename_i d2 dec2 rest2 h2
    rw [h] at h2
    simp only [Except.ok.injEq, Prod.mk.injEq] at h2
    obtain ⟨h3, h4, h5⟩ := h2
    subst h3 h4 h5
    rfl

/-- Encoding a sequence of records with a codec whose states are related by a round-trip
relation `R` succeeds, and the decoding loop reads the written bytes back as that sequence. -/
theorem visitAll_encodeTreeFunc {β : Type} (c : GobCodec β) (R : c.EncState → c.DecState → Prop)
    (hstep : ∀ enc dec d, R enc dec → ∃ enc1 bytes dec1,
      c.Encode enc d = Except.ok (enc1, bytes) ∧ R enc1 dec1 ∧
      ∀ rest, c.Decode dec (bytes ++ rest) = Except.ok (d, dec1, rest))
    (xs : List Data) :
    ∀ (enc : c.EncState) (dec : c.DecState) (file : List β), R enc dec →
      ∃ enc1 bytes dec1,
        visitAll (encodeTreeFunc c) xs (enc, file) = Outcome.finished (enc1, file ++ bytes) ∧
        R enc1 dec1 ∧
        ∀ rest out, DecodeFileLoop c dec (bytes ++ rest) out =
          DecodeFileLoop c dec1 rest (out ++ xs) := by
  induction xs with
  | nil =>
    intro enc dec file hR
    exact ⟨enc, [], dec, by simp [visitAll], hR, by simp⟩
  | cons d tail ih =>
    intro enc dec file hR
    obtain ⟨enc1, bytes1, dec1, hE, hR1, hD⟩ := hstep enc dec d hR
    obtain ⟨enc2, bytes2, dec2, hV, hR2, hL⟩ := ih enc1 dec1 (file ++ bytes1) hR1
    refine ⟨enc2, bytes1 ++ bytes2, dec2, ?_, hR2, ?_⟩
    · simp only [visitAll, encodeTreeFunc, hE]
      rw [hV, List.append_assoc]
    · intro rest out
      rw [List.append_assoc, DecodeFileLoop_of_ok c dec _ out (hD (bytes2 ++ rest)), hL]
      simp

/-! ## Failing visitors -/

/-- A failure on the record that follows a prefix visited without failure ends the run there. -/
theorem visitAll_fails_after_prefix {σ : Type} (f : parseTreeDataFunc σ) (pre post : List Data)
    (d : Data) (s s0 s1 : σ) (e : GoError) (hpre : visitAll f pre s = Outcome.finished s0)
    (hd : f d s0 = (s1, some e)) :
    visitAll f (pre ++ d :: post) s = Outcome.fatal e s1 := by
  rw [visitAll_append, hpre]
  simp only [Outcome.andThen, visitAll, hd]

theorem visitAll_traceVisits {σ : Type} (f : parseTreeDataFunc σ) (xs : List Data) :
    ∀ (s s0 : σ) (seen : List Data), visitAll f xs s = Outcome.finished s0 →
      visitAll (traceVisits f) xs (s, seen) = Outcome.finished (s0, seen ++ xs) := by
  induction xs with
  | nil =>
    intro s s0 seen h
    simp only [visitAll, Outcome.finished.injEq] at h
    simp [visitAll, h]
  | cons d rest ih =>
    intro s s0 seen h
    simp only [visitAll] at h
    rcases hf : f d s with ⟨s1, _ | e⟩
    · rw [hf] at h
      simp only at h
      simp only [visitAll, traceVisits, hf]
      rw [ih s1 s0 (seen ++ [d]) h]
      simp
    · rw [hf] at h
      exact absurd h (by simp)

/-! ## Decoding runs -/

theorem DecodeFileLoop_of_DecodeRun {β : Type} (c : GobCodec β) {dec : c.DecState} {f : List β}
    {ds : List Data} {e : GoError} (h : DecodeRun c dec f ds e) :
    ∀ out, DecodeFileLoop c dec f out = out ++ ds := by
  induction h with
  | fails dec f e h =>
    intro out
    rw [DecodeFileLoop_of_error c dec f out h]
    simp
  | decodes dec dec1 f rest d ds e h _ ih =>
    intro out
    rw [DecodeFileLoop_of_ok c dec f out h, ih]
    simp

/-- Every file gives a finite run of successful decodes ended by a failure. -/
theorem DecodeRun_exists {β : Type} (c : GobCodec β) :
    ∀ (n : Nat) (f : List β) (dec : c.DecState), f.length ≤ n → ∃ ds e, DecodeRun c dec f ds e := by
  intro n
  induction n with
  | zero =>
    intro f dec hn
    rcases hdec : c.Decode dec f with e | ⟨d, dec1, rest⟩
    · exact ⟨[], e, DecodeRun.fails dec f e hdec⟩
    · have := c.consumes dec f d dec1 rest hdec
      omega
  | succ n ih =>
    intro f dec hn
    rcases hdec : c.Decode dec f with e | ⟨d, dec1, rest⟩
    · exact ⟨[], e, DecodeRun.fails dec f e hdec⟩
    · have hlt := c.consumes dec f d dec1 rest hdec
      obtain ⟨ds, e, hrun⟩ := ih rest dec1 (by omega)
      exact ⟨d :: ds, e, DecodeRun.decodes dec dec1 f rest d ds e hdec hrun⟩

theorem DecodeFileLoop_outcomeCodec (outs : List (Except GoError Data)) :
    ∀ out, DecodeFileLoop outcomeCodec () outs out = out ++ recordsBeforeFirstFailure outs := by
  induction outs with
  | nil =>
    intro out
    rw [DecodeFileLoop_of_error outcomeCodec () [] out
      (show outcomeCodec.Decode () [] = Except.error "EOF" from rfl)]
    simp [recordsBeforeFirstFailure]
  | cons o rest ih =>
    intro out
    cases o with
    | error e =>
      rw [DecodeFileLoop_of_error outcomeCodec () (Except.error e :: rest) out
        (show outcomeCodec.Decode () (Except.error e :: rest) = Except.error e from rfl)]
      simp [recordsBeforeFirstFailure]
    | ok d =>
      rw [DecodeFileLoop_of_ok outcomeCodec () (Except.ok d :: rest) out
        (show outcomeCodec.Decode () (Except.ok d :: rest) = Except.ok (d, (), rest) from rfl), ih]
      simp [recordsBeforeFirstFailure]

/-! ## Shape of the result of an insertion -/

theorem MakeTreeLoop_eq_foldl (xs : List Data) (root : Node) :
    MakeTreeLoop xs root = xs.foldl addtotree root := by
  induction xs generalizing root with
  | nil => rfl
  | cons d rest ih => exact ih (addtotree root d)

theorem rootData_addtotree {root : Node} {x : Data} (d : Data) (h : rootData root = some x) :
    rootData (addtotree root d) = some x := by
  cases root with
  | nil => simp [rootData] at h
  | node pd l r =>
    rw [addtotree_node]
    split
    · exact h
    · split <;> exact h

theorem rootData_MakeTreeLoop (xs : List Data) {root : Node} {x : Data}
    (h : rootData root = some x) : rootData (MakeTreeLoop xs root) = some x := by
  induction xs generalizing root with
  | nil => exact h
  | cons d rest ih => exact ih (rootData_addtotree d h)

/-- Inserting a key that the tree does not hold attaches one new leaf. -/
theorem addtotree_addsLeaf {t : Node} {d : Data} (hk : ∀ x ∈ preorder t, x.Key ≠ d.Key) :
    AddsLeaf d t (addtotree t d) := by
  induction t with
  | nil =>
    rw [addtotree_nil]
    exact AddsLeaf.here
  | node pd l r ihl ihr =>
    rw [addtotree_node]
    have hpd : pd.Key ≠ d.Key := hk pd (by simp [preorder])
    have hl : ∀ x ∈ preorder l, x.Key ≠ d.Key := fun x hx => hk x (by simp [preorder, hx])
    have hr : ∀ x ∈ preorder r, x.Key ≠ d.Key := fun x hx => hk x (by simp [preorder, hx])
    split
    · exact AddsLeaf.left pd l _ r (ihl hl)
    · split
      · exact AddsLeaf.right pd l r _ (ihr hr)
      · omega

theorem AddsLeaf.size_eq {d : Data} {t t1 : Node} (h : AddsLeaf d t t1) :
    t1.size = t.size + 1 := by
  induction h with
  | here => rfl
  | left pd l l1 r _ ih => simp only [Node.size, ih]; omega
  | right pd l r r1 _ ih => simp only [Node.size, ih]; omega

theorem AddsLeaf.mem_preorder {d : Data} {t t1 : Node} (h : AddsLeaf d t t1) :
    d ∈ preorder t1 := by
  induction h with
  | here => simp [preorder]
  | left pd l l1 r _ ih => simp [preorder, ih]
  | right pd l r r1 _ ih => simp [preorder, ih]

theorem AddsLeaf.erase_preorder {d : Data} {t t1 : Node} (h : AddsLeaf d t t1)
    (hd : d ∉ preorder t) : (preorder t1).erase d = preorder t := by
  induction h with
  | here => simp [preorder]
  | left pd l l1 r h ih =>
    simp only [preorder, List.mem_cons, List.mem_append, not_or] at hd
    obtain ⟨h1, h2, -⟩ := hd
    simp only [preorder]
    rw [List.erase_cons_tail (by simpa using fun h => h1 h.symm),
      List.erase_append_left _ h.mem_preorder, ih h2]
  | right pd l r r1 h ih =>
    simp only [preorder, List.mem_cons, List.mem_append, not_or] at hd
    obtain ⟨h1, h2, h3⟩ := hd
    simp only [preorder]
    rw [List.erase_cons_tail (by simpa using fun h => h1 h.symm),
      List.erase_append_right _ h2, ih h3]

/-! ## Iterations of the traversal loop -/

theorem processTreeBody_top {σ : Type} (f : parseTreeDataFunc σ) (st : stack) (D : Data)
    (L R : Node) (s : σ) :
    processTreeBody f (st ++ [Node.node D L R]) s =
      match f D s with
      | (s1, some e) => LoopStep.exit (Outcome.fatal e s1)
      | (s1, none) => LoopStep.next
          ((st ++ if R ≠ Node.nil then [R] else []) ++ if L ≠ Node.nil then [L] else []) s1 := by
  unfold processTreeBody
  rw [stack.Pop_append_singleton]
  simp only
  rcases hf : f D s with ⟨s1, _ | e⟩
  · by_cases hR : R = Node.nil <;> by_cases hL : L = Node.nil <;> simp [hR, hL, stack.Push]
  · simp

/-- An iteration that goes on has popped a node, visited it without failure and pushed its
right and then its left child, where they exist. -/
theorem processTreeBody_next {σ : Type} {f : parseTreeDataFunc σ} {st st3 : stack} {s s1 : σ}
    (h : processTreeBody f st s = LoopStep.next st3 s1) :
    ∃ st1 D L R, st = st1 ++ [Node.node D L R] ∧ f D s = (s1, none) ∧
      st3 = (st1 ++ if R ≠ Node.nil then [R] else []) ++ if L ≠ Node.nil then [L] else [] := by
  rcases List.eq_nil_or_concat st with h0 | ⟨st1, n, h0⟩
  · subst h0
    simp [processTreeBody, stack.Pop] at h
  · rw [List.concat_eq_append] at h0
    subst h0
    cases n with
    | nil =>
      unfold processTreeBody at h
      rw [stack.Pop_append_singleton] at h
      simp at h
    | node D L R =>
      rw [processTreeBody_top] at h
      rcases hf : f D s with ⟨s2, _ | e⟩
      · rw [hf] at h
        simp only [LoopStep.next.injEq] at h
        obtain ⟨h1, h2⟩ := h
        exact ⟨st1, D, L, R, rfl, by rw [hf, h2], h1.symm⟩
      · rw [hf] at h
        simp at h

/-- The state reached by `processTreeIter` is a state of the loop: the loop started from the
first state continues as the loop started from the reached one. -/
theorem processTreeLoop_of_processTreeIter {σ : Type} (f : parseTreeDataFunc σ) :
    ∀ (k : Nat) (st st3 : stack) (s s1 : σ), processTreeIter f k st s = some (st3, s1) →
      processTreeLoop f st s = processTreeLoop f st3 s1 := by
  intro k
  induction k with
  | zero =>
    intro st st3 s s1 h
    simp only [processTreeIter, Option.some.injEq, Prod.mk.injEq] at h
    rw [h.1, h.2]
  | succ k ih =>
    intro st st3 s s1 h
    simp only [processTreeIter] at h
    split at h
    · split at h
      · exact absurd h (by simp)
      · rename_i st2 s2 hb
        obtain ⟨st0, D, L, R, hst, hf, hst2⟩ := processTreeBody_next hb
        rw [hst, processTreeLoop_top, hf]
        simp only
        rw [← hst2]
        exact ih st2 st3 s2 s1 h
    · exact absurd h (by simp)

theorem stackWithin_append_singleton (H : Nat) (st : stack) (n : Node) :
    ∀ i, stackWithin H i (st ++ [n]) ↔
      (stackWithin H i st ∧ n ≠ Node.nil ∧ i + st.length + n.height ≤ H) := by
  induction st with
  | nil =>
    intro i
    simp [stackWithin]
  | cons a rest ih =>
    intro i
    show (a ≠ Node.nil ∧ i + a.height ≤ H ∧ stackWithin H (i + 1) (rest ++ [n])) ↔
      ((a ≠ Node.nil ∧ i + a.height ≤ H ∧ stackWithin H (i + 1) rest) ∧ n ≠ Node.nil ∧
        i + (a :: rest).length + n.height ≤ H)
    rw [ih, List.length_cons]
    constructor
    · rintro ⟨h1, h2, h3, h4, h5⟩
      exact ⟨⟨h1, h2, h3⟩, h4, by omega⟩
    · rintro ⟨⟨h1, h2, h3⟩, h4, h5⟩
      exact ⟨h1, h2, h3, h4, by omega⟩

theorem height_pos_of_ne_nil {n : Node} (h : n ≠ Node.nil) : 1 ≤ n.height := by
  cases n with
  | nil => exact absurd rfl h
  | node d l r => simp [Node.height]

theorem stackWithin_length (H : Nat) (st : stack) :
    ∀ i, stackWithin H i st → st ≠ [] → i + st.length ≤ H := by
  induction st with
  | nil =>
    intro i _ h
    exact absurd rfl h
  | cons a rest ih =>
    intro i h _
    obtain ⟨h1, h2, h3⟩ := h
    by_cases hr : rest = []
    · subst hr
      have := height_pos_of_ne_nil h1
      simp only [List.length_singleton]
      omega
    · have := ih (i + 1) h3 hr
      simp only [List.length_cons]
      omega

/-- One iteration of the loop keeps the bound on the stack. -/
theorem stackWithin_processTreeBody {σ : Type} {f : parseTreeDataFunc σ} {H : Nat}
    {st st3 : stack} {s s1 : σ} (hw : stackWithin H 0 st)
    (h : processTreeBody f st s = LoopStep.next st3 s1) : stackWithin H 0 st3 := by
  obtain ⟨st1, D, L, R, hst, -, hst3⟩ := processTreeBody_next h
  subst hst hst3
  rw [stackWithin_append_singleton] at hw
  obtain ⟨hw1, -, hw2⟩ := hw
  simp only [Node.height, Nat.zero_add] at hw2
  have hL : L.height ≤ max L.height R.height := Nat.le_max_left _ _
  have hR : R.height ≤ max L.height R.height := Nat.le_max_right _ _
  by_cases hRn : R = Node.nil <;> by_cases hLn : L = Node.nil
  · simp only [hRn, hLn, ne_eq, not_true_eq_false, if_false, List.append_nil]
    exact hw1
  · simp only [hRn, ne_eq, not_true_eq_false, if_false, List.append_nil, hLn, not_false_eq_true,
      if_true]
    rw [stackWithin_append_singleton]
    exact ⟨hw1, hLn, by omega⟩
  · simp only [hLn, ne_eq, not_true_eq_false, if_false, List.append_nil, hRn, not_false_eq_true,
      if_true]
    rw [stackWithin_append_singleton]
    exact ⟨hw1, hRn, by omega⟩
  · simp only [ne_eq, hRn, not_false_eq_true, if_true, hLn]
    rw [stackWithin_append_singleton, stackWithin_append_singleton]
    refine ⟨⟨hw1, hRn, by omega⟩, hLn, ?_⟩
    simp only [List.length_append, List.length_singleton]
    omega

theorem stackWithin_processTreeIter {σ : Type} (f : parseTreeDataFunc σ) (H : Nat) :
    ∀ (k : Nat) (st st3 : stack) (s s1 : σ), stackWithin H 0 st →
      processTreeIter f k st s = some (st3, s1) → stackWithin H 0 st3 := by
  intro k
  induction k with
  | zero =>
    intro st st3 s s1 hw h
    simp only [processTreeIter, Option.some.injEq, Prod.mk.injEq] at h
    rw [← h.1]
    exact hw
  | succ k ih =>
    intro st st3 s s1 hw h
    simp only [processTreeIter] at h
    split at h
    · split at h
      · exact absurd h (by simp)
      · rename_i st2 s2 hb
        exact ih st2 st3 s2 s1 (stackWithin_processTreeBody hw hb) h
    · exact absurd h (by simp)

/-! ## Iteration counts -/

theorem addtotreeLoopCount_spec (d : Data) (newn : Node) (t : Node) :
    (addtotreeLoopCount d newn t).1 = addtotreeLoop d newn t ∧
      (addtotreeLoopCount d newn t).2 ≤ t.height := by
  induction t with
  | nil => simp [addtotreeLoopCount, addtotreeLoop]
  | node pd l r ihl ihr =>
    have hL : l.height ≤ max l.height r.height := Nat.le_max_left _ _
    have hR : r.height ≤ max l.height r.height := Nat.le_max_right _ _
    simp only [addtotreeLoopCount, addtotreeLoop, Node.height]
    by_cases h1 : d.Key < pd.Key
    · simp only [h1, if_true]
      by_cases hl : l = Node.nil
      · simp only [hl, ne_eq, not_true_eq_false, if_false, true_and]
        omega
      · simp only [ne_eq, hl, not_false_eq_true, if_true, ihl.1, true_and]
        have := ihl.2
        omega
    · simp only [h1, if_false]
      by_cases h2 : d.Key > pd.Key
      · simp only [h2, if_true]
        by_cases hr : r = Node.nil
        · simp only [hr, ne_eq, not_true_eq_false, if_false, true_and]
          omega
        · simp only [ne_eq, hr, not_false_eq_true, if_true, ihr.1, true_and]
          have := ihr.2
          omega
      · simp only [h2, if_false, true_and]
        omega

theorem stackWeight_append (st st2 : stack) :
    stackWeight (st ++ st2) = stackWeight st + stackWeight st2 := by
  simp [stackWeight]

/-- Each iteration that goes on removes exactly one node from what is left to visit. -/
theorem stackWeight_processTreeBody {σ : Type} {f : parseTreeDataFunc σ} {st st3 : stack}
    {s s1 : σ} (h : processTreeBody f st s = LoopStep.next st3 s1) :
    stackWeight st3 + 1 = stackWeight st ∧
      ((∀ n ∈ st, n ≠ Node.nil) → ∀ n ∈ st3, n ≠ Node.nil) := by
  obtain ⟨st1, D, L, R, hst, -, hst3⟩ := processTreeBody_next h
  subst hst hst3
  constructor
  · by_cases hR : R = Node.nil <;> by_cases hL : L = Node.nil <;>
      simp [hR, hL, stackWeight, Node.size] <;> omega
  · intro hall n hn
    simp only [List.mem_append] at hn
    rcases hn with (hn | hn) | hn
    · exact hall n (by simp [hn])
    · by_cases hR : R = Node.nil
      · simp [hR] at hn
      · simp only [ne_eq, hR, not_false_eq_true, if_true, List.mem_singleton] at hn
        rw [hn]
        exact hR
    · by_cases hL : L = Node.nil
      · simp [hL] at hn
      · simp only [ne_eq, hL, not_false_eq_true, if_true, List.mem_singleton] at hn
        rw [hn]
        exact hL

theorem stackWeight_pos {st : stack} (hall : ∀ n ∈ st, n ≠ Node.nil) (hne : st ≠ []) :
    0 < stackWeight st := by
  cases st with
  | nil => exact absurd rfl hne
  | cons a rest =>
    have ha := hall a (List.mem_cons_self a rest)
    cases a with
    | nil => exact absurd rfl ha
    | node d l r =>
      simp only [stackWeight, List.map_cons, List.sum_cons, Node.size]
      omega

/-- With a visitor that never fails, the loop runs as long as nodes are left on the stack, and
after `k` iterations exactly `k` nodes have been taken from what was left to visit. -/
theorem processTreeIter_of_never_fails {σ : Type} (f : parseTreeDataFunc σ)
    (hf : ∀ d s, (f d s).2 = none) :
    ∀ (k : Nat) (st : stack) (s : σ), (∀ n ∈ st, n ≠ Node.nil) → k ≤ stackWeight st →
      ∃ st3 s1, processTreeIter f k st s = some (st3, s1) ∧
        stackWeight st3 + k = stackWeight st ∧ ∀ n ∈ st3, n ≠ Node.nil := by
  intro k
  induction k with
  | zero =>
    intro st s hall _
    exact ⟨st, s, rfl, rfl, hall⟩
  | succ k ih =>
    intro st s hall hk
    rcases List.eq_nil_or_concat st with h0 | ⟨st1, n, h0⟩
    · subst h0
      simp [stackWeight] at hk
    · rw [List.concat_eq_append] at h0
      subst h0
      have hn := hall n (by simp)
      cases n with
      | nil => exact absurd rfl hn
      | node D L R =>
        have hb := processTreeBody_top f st1 D L R s
        have hfd := hf D s
        rcases hfs : f D s with ⟨s2, oe⟩
        rw [hfs] at hfd hb
        simp only at hfd
        subst hfd
        simp only at hb
        obtain ⟨hw, hall3⟩ := stackWeight_processTreeBody hb
        obtain ⟨st3, s1, hit, hw3, hall4⟩ := ih _ s2 (hall3 hall) (by omega)
        refine ⟨st3, s1, ?_, by omega, hall4⟩
        simp only [processTreeIter, List.length_append, List.length_singleton, hb]
        rw [if_pos (Nat.succ_pos _)]
        exact hit

theorem visitAll_ne_crashed {σ : Type} (f : parseTreeDataFunc σ) (xs : List Data) (s : σ) :
    visitAll f xs s ≠ Outcome.crashed := by
  induction xs generalizing s with
  | nil => simp [visitAll]
  | cons d rest ih =>
    simp only [visitAll]
    rcases hf : f d s with ⟨s1, _ | e⟩
    · exact ih s1
    · simp

/-- Strictly increasing keys build a chain along the right links. -/
theorem MakeTreeLoop_of_increasing (rs : List Data)
    (h : rs.Pairwise (fun a b => a.Key < b.Key)) :
    NoLeftChild (MakeTreeLoop rs Node.nil) ∧ (MakeTreeLoop rs Node.nil).height = rs.length ∧
      preorder (MakeTreeLoop rs Node.nil) = rs := by
  induction rs with
  | nil => simp [MakeTreeLoop, NoLeftChild, Node.height, preorder]
  | cons d rest ih =>
    rw [List.pairwise_cons] at h
    obtain ⟨ih1, ih2, ih3⟩ := ih h.2
    simp only [MakeTreeLoop, addtotree_nil, newnode]
    rw [MakeTreeLoop_right rest d Node.nil Node.nil h.1]
    refine ⟨⟨rfl, ih1⟩, ?_, ?_⟩
    · simp [Node.height, ih2]
      omega
    · simp [preorder, ih3]

/-! ## The claims -/

/-- C1 (the code at the failing input): on the empty input `MakeTree` returns the empty tree,
on which `processTree` never invokes the accumulating visitor, so the pointer the caller gave to
`getPreOrderDataVals` is still nil and there is no collected sequence to pass to `MakeTree`; the
pre-order sequence of that tree is the empty sequence, which `MakeTree` rebuilds into the same
tree. -/
theorem C1_collected_sequence_on_empty_tree :
    MakeTree (some []) = Node.nil ∧
      processTree getPreOrderDataVals (MakeTree (some [])) PreOrderAcc.new =
        Outcome.finished { ds := [], pptr := none } ∧
      collectPreOrder (MakeTree (some [])) = none ∧
      preorder (MakeTree (some [])) = [] ∧
      MakeTree (some (preorder (MakeTree (some [])))) = MakeTree (some []) := by
  refine ⟨rfl, ?_, ?_, rfl, rfl⟩
  · rw [processTree_getPreOrderDataVals]
    rfl
  · rw [collectPreOrder_eq]
    rfl

/-- C2: every tree returned by `MakeTree` satisfies the BST invariant (at every node the keys of
the left subtree are strictly less and those of the right subtree strictly greater than the
node's key); `addtotree` preserves the invariant for every tree and record, and the empty tree
satisfies it. -/
theorem C2_bst_invariant :
    (∀ darr : Option (List Data), BST (MakeTree darr)) ∧
    (∀ (t : Node) (d : Data), BST t → BST (addtotree t d)) ∧
    BST Node.nil := by
  refine ⟨?_, fun t d h => BST_addtotree d h, trivial⟩
  intro darr
  cases darr with
  | none => exact trivial
  | some rs => exact BST_MakeTreeLoop rs trivial

theorem C2_bst_invariant_witness :
    BST sampleTree ∧ BST (addtotree sampleTree ⟨8, "8"⟩) :=
  ⟨by decide, C2_bst_invariant.2.1 sampleTree ⟨8, "8"⟩ (by decide)⟩

/-- C3: for every tree and every visitor that never fails, `processTree` returns after having
applied the visitor to the records of the tree in the order of the recursive pre-order
definition (node, left subtree, right subtree), once per node; on the absent root it returns
with the visitor's state untouched. -/
theorem C3_processTree_preorder {σ : Type} (f : parseTreeDataFunc σ)
    (hf : ∀ d s, (f d s).2 = none) (t : Node) (s : σ) :
    processTree f t s = Outcome.finished ((preorder t).foldl (fun acc d => (f d acc).1) s) ∧
      processTree f Node.nil s = Outcome.finished s := by
  constructor
  · rw [processTree_eq_visitAll, visitAll_of_never_fails f hf]
  · simp [processTree]

theorem C3_processTree_preorder_witness :
    (∀ d s, (getPreOrderDataVals d s).2 = none) ∧
      processTree getPreOrderDataVals sampleTree PreOrderAcc.new =
        Outcome.finished ((preorder sampleTree).foldl
          (fun acc d => (getPreOrderDataVals d acc).1) PreOrderAcc.new) ∧
      processTree getPreOrderDataVals Node.nil PreOrderAcc.new =
        Outcome.finished PreOrderAcc.new :=
  ⟨fun _ _ => rfl,
    C3_processTree_preorder getPreOrderDataVals (fun _ _ => rfl) sampleTree PreOrderAcc.new⟩

/-- C4: for two non-empty trees `CompareTrees` returns, and it returns true exactly when the two
pre-order record sequences have equal length and, at every index, equal key and equal value. -/
theorem C4_CompareTrees_sequences (a b : Node) (ha : a ≠ Node.nil) (hb : b ≠ Node.nil) :
    (∃ r, CompareTrees a b = some r) ∧
    (CompareTrees a b = some true ↔
      ((preorder a).length = (preorder b).length ∧
        ∀ (i : Nat) (h1 : i < (preorder a).length) (h2 : i < (preorder b).length),
          ((preorder a).get ⟨i, h1⟩).Key = ((preorder b).get ⟨i, h2⟩).Key ∧
          ((preorder a).get ⟨i, h1⟩).Val = ((preorder b).get ⟨i, h2⟩).Val)) := by
  rw [CompareTrees_of_ne_nil ha hb]
  refine ⟨⟨_, rfl⟩, ?_⟩
  simp only [Option.some.injEq, decide_eq_true_eq]
  constructor
  · intro h
    refine ⟨congrArg List.length h, ?_⟩
    intro i h1 h2
    have : (preorder a).get ⟨i, h1⟩ = (preorder b).get ⟨i, h2⟩ := by
      simp only [List.get_eq_getElem]
      simp only [h]
    exact (Data.ext_iff_fields _ _).mp this
  · rintro ⟨hlen, hpt⟩
    apply List.ext_get hlen
    intro i h1 h2
    exact (Data.ext_iff_fields _ _).mpr (hpt i h1 h2)

theorem C4_CompareTrees_sequences_witness :
    sampleTree ≠ Node.nil ∧ addtotree sampleTree ⟨8, "8"⟩ ≠ Node.nil ∧
      (∃ r, CompareTrees sampleTree (addtotree sampleTree ⟨8, "8"⟩) = some r) :=
  ⟨by decide, by decide,
    (C4_CompareTrees_sequences sampleTree (addtotree sampleTree ⟨8, "8"⟩)
      (by decide) (by decide)).1⟩

/-- C5: for two trees that satisfy the BST invariant `CompareTrees` returns, and it returns true
exactly when the two trees are identical in shape and in the record at every node. -/
theorem C5_CompareTrees_exact_on_BST (a b : Node) (ha : BST a) (hb : BST b) :
    (∃ r, CompareTrees a b = some r) ∧ (CompareTrees a b = some true ↔ a = b) := by
  by_cases hna : a = Node.nil
  · by_cases hnb : b = Node.nil
    · subst hna hnb
      simp [CompareTrees]
    · subst hna
      simp only [CompareTrees, if_true, if_neg hnb]
      exact ⟨⟨_, rfl⟩, by simp [Ne.symm hnb]⟩
  · by_cases hnb : b = Node.nil
    · subst hnb
      simp only [CompareTrees, if_true, if_neg hna]
      exact ⟨⟨_, rfl⟩, by simp [hna]⟩
    · rw [CompareTrees_of_ne_nil hna hnb]
      refine ⟨⟨_, rfl⟩, ?_⟩
      simp only [Option.some.injEq, decide_eq_true_eq]
      constructor
      · intro h
        rw [← MakeTreeLoop_preorder ha, ← MakeTreeLoop_preorder hb, h]
      · intro h
        rw [h]

theorem C5_CompareTrees_exact_on_BST_witness :
    BST sampleTree ∧ BST (addtotree sampleTree ⟨8, "8"⟩) ∧
      (CompareTrees sampleTree (addtotree sampleTree ⟨8, "8"⟩) = some true ↔
        sampleTree = addtotree sampleTree ⟨8, "8"⟩) :=
  ⟨by decide, by decide,
    (C5_CompareTrees_exact_on_BST sampleTree (addtotree sampleTree ⟨8, "8"⟩)
      (by decide) (by decide)).2⟩

/-- C6: in a tree that satisfies the BST invariant, `addtotree` with a record whose key is
already held by a node returns the tree unchanged in shape and in every record: the new record
is discarded and the existing value is kept. -/
theorem C6_duplicate_key_is_noop (t : Node) (d : Data) (h : BST t)
    (hk : ∃ x ∈ preorder t, x.Key = d.Key) : addtotree t d = t :=
  addtotree_of_key_mem h hk

theorem C6_duplicate_key_is_noop_witness :
    BST sampleTree ∧ (∃ x ∈ preorder sampleTree, x.Key = (⟨9, "other"⟩ : Data).Key) ∧
      addtotree sampleTree ⟨9, "other"⟩ = sampleTree :=
  ⟨by decide, by decide,
    C6_duplicate_key_is_noop sampleTree ⟨9, "other"⟩ (by decide) (by decide)⟩

/-- C7: the records held by `MakeTree(rs)` are the first occurrences in `rs` of the distinct
keys: the keys of the tree are exactly the keys of `rs`, no key is held by two nodes, the node
count is the number of distinct keys of `rs`, and a record is in the tree exactly when it is the
earliest record of `rs` with its key. -/
theorem C7_first_occurrence_kept (rs : List Data) :
    (∀ k : Int, k ∈ (preorder (MakeTree (some rs))).map Data.Key ↔ k ∈ rs.map Data.Key) ∧
    ((preorder (MakeTree (some rs))).map Data.Key).Nodup ∧
    (MakeTree (some rs)).size = (rs.map Data.Key).dedup.length ∧
    (∀ x : Data, x ∈ preorder (MakeTree (some rs)) ↔
      rs.find? (fun r => decide (r.Key = x.Key)) = some x) := by
  have hkeys : ∀ k : Int,
      k ∈ (preorder (MakeTree (some rs))).map Data.Key ↔ k ∈ rs.map Data.Key := by
    intro k
    simp only [MakeTree]
    rw [keys_MakeTreeLoop]
    simp [preorder]
  have hbst : BST (MakeTree (some rs)) := BST_MakeTreeLoop rs trivial
  have hnodup := BST_keys_nodup hbst
  have hfirst : ∀ x : Data, x ∈ preorder (MakeTree (some rs)) →
      rs.find? (fun r => decide (r.Key = x.Key)) = some x := by
    intro x hx
    rcases @mem_preorder_MakeTreeLoop rs Node.nil trivial x hx with h | ⟨-, h⟩
    · simp [preorder] at h
    · exact h
  refine ⟨hkeys, hnodup, ?_, ?_⟩
  · rw [size_eq_length_preorder, ← List.length_map (preorder (MakeTree (some rs))) Data.Key]
    apply List.Perm.length_eq
    rw [List.perm_ext_iff_of_nodup hnodup (List.nodup_dedup _)]
    intro k
    rw [hkeys k, List.mem_dedup]
  · intro x
    constructor
    · exact hfirst x
    · intro hx
      have hmem : x ∈ rs := List.mem_of_find?_eq_some hx
      have hk : x.Key ∈ (preorder (MakeTree (some rs))).map Data.Key :=
        (hkeys x.Key).mpr (List.mem_map.mpr ⟨x, hmem, rfl⟩)
      obtain ⟨y, hy, hyk⟩ := List.mem_map.mp hk
      have hfy := hfirst y hy
      rw [hyk, hx] at hfy
      rw [Option.some.injEq] at hfy
      rw [hfy]
      exact hy

/-- C8: `CompareTrees` of two empty trees returns true, and for every non-empty tree it returns
false against the empty tree in both argument orders. -/
theorem C8_CompareTrees_empty :
    CompareTrees Node.nil Node.nil = some true ∧
    ∀ t : Node, t ≠ Node.nil →
      CompareTrees Node.nil t = some false ∧ CompareTrees t Node.nil = some false := by
  refine ⟨by simp [CompareTrees], ?_⟩
  intro t ht
  simp [CompareTrees, ht]

theorem C8_CompareTrees_empty_witness :
    sampleTree ≠ Node.nil ∧
      CompareTrees Node.nil sampleTree = some false ∧
      CompareTrees sampleTree Node.nil = some false :=
  ⟨by decide, C8_CompareTrees_empty.2 sampleTree (by decide)⟩

/-- C9: for two trees of the same shape that hold the same record at every position except one,
where the records differ in key or in value, `CompareTrees` returns false, wherever the
differing node is. -/
theorem C9_CompareTrees_sensitive (a b : Node) (h : DiffersAtOne a b) :
    CompareTrees a b = some false := by
  have ha : a ≠ Node.nil := by
    cases h <;> simp
  have hb : b ≠ Node.nil := by
    cases h <;> simp
  rw [CompareTrees_of_ne_nil ha hb]
  simp [h.preorder_ne]

theorem C9_CompareTrees_sensitive_witness :
    DiffersAtOne
        (Node.node ⟨10, "10"⟩ (Node.node ⟨7, "7"⟩ (Node.node ⟨1, "1"⟩ Node.nil Node.nil) Node.nil)
          (Node.node ⟨17, "17"⟩ Node.nil Node.nil))
        (Node.node ⟨10, "10"⟩ (Node.node ⟨7, "7"⟩ (Node.node ⟨2, "2"⟩ Node.nil Node.nil) Node.nil)
          (Node.node ⟨17, "17"⟩ Node.nil Node.nil)) ∧
      CompareTrees
        (Node.node ⟨10, "10"⟩ (Node.node ⟨7, "7"⟩ (Node.node ⟨1, "1"⟩ Node.nil Node.nil) Node.nil)
          (Node.node ⟨17, "17"⟩ Node.nil Node.nil))
        (Node.node ⟨10, "10"⟩ (Node.node ⟨7, "7"⟩ (Node.node ⟨2, "2"⟩ Node.nil Node.nil) Node.nil)
          (Node.node ⟨17, "17"⟩ Node.nil Node.nil)) = some false :=
  ⟨DiffersAtOne.left _ _ _ _ (DiffersAtOne.left _ _ _ _
      (DiffersAtOne.here _ _ _ _ (Or.inl (by decide)))),
    C9_CompareTrees_sensitive _ _ (DiffersAtOne.left _ _ _ _ (DiffersAtOne.left _ _ _ _
      (DiffersAtOne.here _ _ _ _ (Or.inl (by decide)))))⟩

/-- C10: with a codec that satisfies the round-trip law, for every sequence of records (with
unique keys or not) `EncodeIntoFile` of `MakeTree(records)` into an empty file returns, and
`DecodeFile` of the bytes written yields the pre-order record sequence of the tree, whose
`MakeTree` compares equal to the original tree under `CompareTrees`. -/
theorem C10_encode_decode_roundtrip {β : Type} (c : GobCodec β) (hc : c.RoundTrip)
    (rs : List Data) :
    ∃ enc bytes, EncodeIntoFile c [] (MakeTree (some rs)) = Outcome.finished (enc, bytes) ∧
      DecodeFile c bytes = preorder (MakeTree (some rs)) ∧
      CompareTrees (MakeTree (some rs)) (MakeTree (some (DecodeFile c bytes))) = some true := by
  obtain ⟨R, hinit, hstep, hend⟩ := hc
  obtain ⟨enc1, bytes, dec1, hV, hR1, hL⟩ :=
    visitAll_encodeTreeFunc c R hstep (preorder (MakeTree (some rs))) c.NewEncoder c.NewDecoder []
      hinit
  have hdec : DecodeFile c bytes = preorder (MakeTree (some rs)) := by
    unfold DecodeFile
    have h := hL [] []
    rw [List.append_nil] at h
    obtain ⟨e, he⟩ := hend enc1 dec1 hR1
    rw [h, DecodeFileLoop_of_error c dec1 [] _ he]
    simp
  refine ⟨enc1, bytes, ?_, hdec, ?_⟩
  · unfold EncodeIntoFile
    rw [processTree_eq_visitAll, hV]
    simp
  · rw [hdec]
    have hb : MakeTree (some (preorder (MakeTree (some rs)))) = MakeTree (some rs) :=
      MakeTreeLoop_preorder (BST_MakeTreeLoop rs trivial)
    rw [hb]
    exact CompareTrees_self _

theorem recordCodec_RoundTrip : recordCodec.RoundTrip :=
  ⟨fun _ _ => True, trivial,
    fun _ _ d _ => ⟨(), [d], (), rfl, trivial, fun _ => rfl⟩,
    fun _ _ _ => ⟨"EOF", rfl⟩⟩

theorem C10_encode_decode_roundtrip_witness :
    recordCodec.RoundTrip ∧
      ∃ enc bytes, EncodeIntoFile recordCodec [] (MakeTree (some sampleRecords)) =
          Outcome.finished (enc, bytes) ∧
        DecodeFile recordCodec bytes = preorder (MakeTree (some sampleRecords)) ∧
        CompareTrees (MakeTree (some sampleRecords))
          (MakeTree (some (DecodeFile recordCodec bytes))) = some true :=
  ⟨recordCodec_RoundTrip, C10_encode_decode_roundtrip recordCodec recordCodec_RoundTrip sampleRecords⟩

/-- C11 (as stated, refuted): on the tree of `main`, with a visitor that reports a failure on
the record with key 4, `processTree` ends in `log.Fatal` after the keys 10 and 7 were visited: the
process is stopped and the call does not give the failure, nor control, back to its caller. -/
theorem C11_failure_not_returned_counterexample :
    (failOnKey 4 ⟨4, "4"⟩ [10, 7]).2 = some "failure" ∧
      processTree (failOnKey 4) sampleTree [] = Outcome.fatal "failure" [10, 7] ∧
      (processTree (failOnKey 4) sampleTree []).returnsToCaller = false := by
  rw [processTree_eq_visitAll]
  decide

/-- C11 (amended): if the visitor reports a failure on a record of the tree after the records
before it in pre-order were visited without failure, then `processTree` stops there: the visitor
has been invoked on exactly those records and the failing one, on no later record, and the call
ends in `log.Fatal` with that failure and does not return to its caller. -/
theorem C11_visitor_failure_stops_traversal {σ : Type} (f : parseTreeDataFunc σ) (t : Node)
    (pre post : List Data) (d : Data) (s s0 s1 : σ) (e : GoError)
    (hseq : preorder t = pre ++ d :: post)
    (hpre : visitAll f pre s = Outcome.finished s0)
    (hd : f d s0 = (s1, some e)) :
    processTree f t s = Outcome.fatal e s1 ∧
      processTree (traceVisits f) t (s, []) = Outcome.fatal e (s1, pre ++ [d]) ∧
      (processTree f t s).returnsToCaller = false := by
  have h1 : processTree f t s = Outcome.fatal e s1 := by
    rw [processTree_eq_visitAll, hseq]
    exact visitAll_fails_after_prefix f pre post d s s0 s1 e hpre hd
  refine ⟨h1, ?_, ?_⟩
  · rw [processTree_eq_visitAll, hseq]
    apply visitAll_fails_after_prefix (traceVisits f) pre post d (s, []) (s0, pre) (s1, pre ++ [d]) e
    · have h := visitAll_traceVisits f pre s s0 [] hpre
      simpa using h
    · simp [traceVisits, hd]
  · rw [h1]
    rfl

theorem C11_visitor_failure_stops_traversal_witness :
    preorder sampleTree =
        [⟨10, "10"⟩, ⟨7, "7"⟩] ++ ⟨4, "4"⟩ ::
          [⟨1, "1"⟩, ⟨5, "5"⟩, ⟨9, "9"⟩, ⟨17, "17"⟩, ⟨15, "15"⟩, ⟨20, "20"⟩, ⟨30, "30"⟩] ∧
      visitAll (failOnKey 4) [⟨10, "10"⟩, ⟨7, "7"⟩] [] = Outcome.finished [10, 7] ∧
      failOnKey 4 ⟨4, "4"⟩ [10, 7] = ([10, 7], some "failure") ∧
      processTree (traceVisits (failOnKey 4)) sampleTree ([], []) =
        Outcome.fatal "failure" ([10, 7], [⟨10, "10"⟩, ⟨7, "7"⟩] ++ [⟨4, "4"⟩]) :=
  ⟨by decide, by decide, by decide,
    (C11_visitor_failure_stops_traversal (failOnKey 4) sampleTree [⟨10, "10"⟩, ⟨7, "7"⟩]
      [⟨1, "1"⟩, ⟨5, "5"⟩, ⟨9, "9"⟩, ⟨17, "17"⟩, ⟨15, "15"⟩, ⟨20, "20"⟩, ⟨30, "30"⟩]
      ⟨4, "4"⟩ [] [10, 7] [10, 7] "failure" (by decide) (by decide) (by decide)).2.1⟩

/-- C12: `MakeTree` applied to the records with keys 10, 7, 4, 1, 5, 9, 17, 15, 20, 30 (the value
being the decimal text of the key) returns a tree whose root key is 10 and on which `processTree`
with the accumulating visitor collects the keys 10, 7, 4, 1, 5, 9, 17, 15, 20, 30 in this order. -/
theorem C12_main_scenario :
    sampleRecords.map Data.Key = [10, 7, 4, 1, 5, 9, 17, 15, 20, 30] ∧
      sampleRecords.map Data.Val = ["10", "7", "4", "1", "5", "9", "17", "15", "20", "30"] ∧
      (rootData (MakeTree (some sampleRecords))).map Data.Key = some 10 ∧
      (collectPreOrder (MakeTree (some sampleRecords))).map (List.map Data.Key) =
        some [10, 7, 4, 1, 5, 9, 17, 15, 20, 30] := by
  rw [collectPreOrder_eq]
  decide

/-- C13: whatever the outcomes of the successive `Decode` calls on a file are (records `ds`
decoded in this order, then a first failure `e`), `DecodeFile` returns exactly `ds` and reports
nothing else, whether `e` is the end of the stream or a malformed record; such a run exists for
every file; and on a stream given as its sequence of decode outcomes `DecodeFile` returns the
records that come before the first failure. -/
theorem C13_DecodeFile_stops_at_first_failure :
    (∀ (β : Type) (c : GobCodec β) (f : List β) (ds : List Data) (e : GoError),
      DecodeRun c c.NewDecoder f ds e → DecodeFile c f = ds) ∧
    (∀ (β : Type) (c : GobCodec β) (f : List β), ∃ ds e, DecodeRun c c.NewDecoder f ds e) ∧
    (∀ outs : List (Except GoError Data),
      DecodeFile outcomeCodec outs = recordsBeforeFirstFailure outs) := by
  refine ⟨?_, ?_, ?_⟩
  · intro β c f ds e h
    unfold DecodeFile
    rw [DecodeFileLoop_of_DecodeRun c h]
    simp
  · intro β c f
    exact DecodeRun_exists c f.length f c.NewDecoder (Nat.le_refl _)
  · intro outs
    unfold DecodeFile
    rw [show outcomeCodec.NewDecoder = () from rfl, DecodeFileLoop_outcomeCodec]
    simp

theorem C13_DecodeFile_stops_at_first_failure_witness :
    DecodeRun outcomeCodec outcomeCodec.NewDecoder
        [Except.ok ⟨10, "10"⟩, Except.error "malformed", Except.ok ⟨7, "7"⟩]
        [⟨10, "10"⟩] "malformed" ∧
      DecodeFile outcomeCodec
        [Except.ok ⟨10, "10"⟩, Except.error "malformed", Except.ok ⟨7, "7"⟩] = [⟨10, "10"⟩] :=
  ⟨@DecodeRun.decodes _ outcomeCodec () () _ _ _ _ _ rfl
      (@DecodeRun.fails _ outcomeCodec () _ _ rfl),
    C13_DecodeFile_stops_at_first_failure.1 _ outcomeCodec _ _ _
      (@DecodeRun.decodes _ outcomeCodec () () _ _ _ _ _ rfl
        (@DecodeRun.fails _ outcomeCodec () _ _ rfl))⟩

/-- C14: `MakeTree` returns the nil root exactly when its input is the nil or the empty slice;
on a non-empty input the root node holds the first record; and `MakeTree` is the left fold of
`addtotree` over the input from the empty tree. -/
theorem C14_MakeTree_fold :
    (∀ darr : Option (List Data), MakeTree darr = Node.nil ↔ (darr = none ∨ darr = some [])) ∧
    (∀ (d : Data) (rest : List Data), rootData (MakeTree (some (d :: rest))) = some d) ∧
    (∀ rs : List Data, MakeTree (some rs) = rs.foldl addtotree Node.nil) := by
  have hroot : ∀ (d : Data) (rest : List Data),
      rootData (MakeTree (some (d :: rest))) = some d := by
    intro d rest
    simp only [MakeTree, MakeTreeLoop, addtotree_nil]
    exact rootData_MakeTreeLoop rest rfl
  refine ⟨?_, hroot, ?_⟩
  · intro darr
    cases darr with
    | none => simp [MakeTree]
    | some rs =>
      cases rs with
      | nil => simp [MakeTree, MakeTreeLoop]
      | cons d rest =>
        have h := hroot d rest
        constructor
        · intro h0
          rw [h0] at h
          simp [rootData] at h
        · intro h0
          simp at h0
  · intro rs
    exact MakeTreeLoop_eq_foldl rs Node.nil

/-- C15: `Push` appends the node reference at the end of the stack, and `Pop` after `Push`
returns the stack as it was together with the pushed reference. -/
theorem C15_Push_Pop :
    (∀ (s : stack) (v : Node), stack.Push s v = s ++ [v]) ∧
    (∀ (s : stack) (v : Node), stack.Pop (stack.Push s v) = some (s, v)) :=
  ⟨fun _ _ => rfl, stack.Pop_Push⟩

/-- C16: for every tree (a BST or not) and every record whose key the tree does not hold,
`addtotree` returns the tree with one new leaf holding the record attached at a link that was
nil, every existing node keeping its record and its children: the node count grows by one and
removing the record from the new pre-order sequence gives the old one. -/
theorem C16_insert_adds_one_leaf (t : Node) (d : Data)
    (hk : ∀ x ∈ preorder t, x.Key ≠ d.Key) :
    AddsLeaf d t (addtotree t d) ∧
      (addtotree t d).size = t.size + 1 ∧
      (preorder (addtotree t d)).erase d = preorder t := by
  have h := addtotree_addsLeaf hk
  refine ⟨h, h.size_eq, h.erase_preorder ?_⟩
  intro hd
  exact hk d hd rfl

theorem C16_insert_adds_one_leaf_witness :
    (∀ x ∈ preorder sampleTree, x.Key ≠ (⟨8, "8"⟩ : Data).Key) ∧
      (addtotree sampleTree ⟨8, "8"⟩).size = sampleTree.size + 1 ∧
      (preorder (addtotree sampleTree ⟨8, "8"⟩)).erase ⟨8, "8"⟩ = preorder sampleTree :=
  ⟨by decide, (C16_insert_adds_one_leaf sampleTree ⟨8, "8"⟩ (by decide)).2⟩

/-- C17: for every non-empty tree and every visitor, the stack at the head of the loop of
`processTree` after any number of iterations (a state from which the loop goes on as from the
start) holds at most `height(t)` node references. -/
theorem C17_stack_bounded_by_height {σ : Type} (f : parseTreeDataFunc σ) (t : Node) (s : σ)
    (ht : t ≠ Node.nil) (k : Nat) (st : stack) (s1 : σ)
    (h : processTreeIter f k (stack.Push [] t) s = some (st, s1)) :
    st.length ≤ t.height ∧
      processTreeLoop f (stack.Push [] t) s = processTreeLoop f st s1 := by
  refine ⟨?_, processTreeLoop_of_processTreeIter f k _ st s s1 h⟩
  have h0 : stackWithin t.height 0 (stack.Push [] t) := by
    simp only [stack.Push, List.nil_append, stackWithin]
    exact ⟨ht, by omega, trivial⟩
  have hw := stackWithin_processTreeIter f t.height k _ st s s1 h0 h
  by_cases hst : st = []
  · subst hst
    simp
  · have := stackWithin_length t.height st 0 hw hst
    omega

theorem C17_stack_bounded_by_height_witness :
    Node.node ⟨2, "2"⟩ (newnode ⟨1, "1"⟩) (newnode ⟨3, "3"⟩) ≠ Node.nil ∧
      processTreeIter getPreOrderDataVals 1
          (stack.Push [] (Node.node ⟨2, "2"⟩ (newnode ⟨1, "1"⟩) (newnode ⟨3, "3"⟩)))
          PreOrderAcc.new =
        some ([newnode ⟨3, "3"⟩, newnode ⟨1, "1"⟩],
          { ds := [⟨2, "2"⟩], pptr := some [⟨2, "2"⟩] }) ∧
      [newnode ⟨3, "3"⟩, newnode ⟨1, "1"⟩].length ≤
        (Node.node ⟨2, "2"⟩ (newnode ⟨1, "1"⟩) (newnode ⟨3, "3"⟩)).height :=
  ⟨by decide, by decide,
    (C17_stack_bounded_by_height getPreOrderDataVals
      (Node.node ⟨2, "2"⟩ (newnode ⟨1, "1"⟩) (newnode ⟨3, "3"⟩)) PreOrderAcc.new (by decide) 1
      [newnode ⟨3, "3"⟩, newnode ⟨1, "1"⟩] { ds := [⟨2, "2"⟩], pptr := some [⟨2, "2"⟩] }
      (by decide)).1⟩

/-- C18: for every sequence of records with strictly increasing keys `MakeTree` returns a chain:
no node has a left child, the height is the number of records, the pre-order sequence is the
input sequence (and it is what `processTree` leaves behind the pointer of the accumulating
visitor when the input is not empty), and the tree rebuilt from the pre-order sequence is
reported equal to the original by `CompareTrees`. -/
theorem C18_increasing_keys_chain (rs : List Data)
    (h : rs.Pairwise (fun a b => a.Key < b.Key)) :
    NoLeftChild (MakeTree (some rs)) ∧
      (MakeTree (some rs)).height = rs.length ∧
      preorder (MakeTree (some rs)) = rs ∧
      (rs ≠ [] → collectPreOrder (MakeTree (some rs)) = some rs) ∧
      CompareTrees (MakeTree (some rs)) (MakeTree (some (preorder (MakeTree (some rs))))) =
        some true := by
  obtain ⟨h1, h2, h3⟩ := MakeTreeLoop_of_increasing rs h
  refine ⟨h1, h2, h3, ?_, ?_⟩
  · intro hne
    have hn : MakeTree (some rs) ≠ Node.nil := by
      intro h0
      have h5 : preorder (MakeTree (some rs)) = rs := h3
      rw [h0] at h5
      exact hne h5.symm
    rw [collectPreOrder_of_ne_nil hn]
    exact congrArg some h3
  · rw [show preorder (MakeTree (some rs)) = rs from h3]
    exact CompareTrees_self _

theorem C18_increasing_keys_chain_witness :
    ([⟨0, "0"⟩, ⟨1, "1"⟩, ⟨2, "2"⟩, ⟨3, "3"⟩] : List Data).Pairwise
        (fun a b => a.Key < b.Key) ∧
      ([⟨0, "0"⟩, ⟨1, "1"⟩, ⟨2, "2"⟩, ⟨3, "3"⟩] : List Data) ≠ [] ∧
      (MakeTree (some [⟨0, "0"⟩, ⟨1, "1"⟩, ⟨2, "2"⟩, ⟨3, "3"⟩])).height = 4 ∧
      preorder (MakeTree (some [⟨0, "0"⟩, ⟨1, "1"⟩, ⟨2, "2"⟩, ⟨3, "3"⟩])) =
        [⟨0, "0"⟩, ⟨1, "1"⟩, ⟨2, "2"⟩, ⟨3, "3"⟩] ∧
      collectPreOrder (MakeTree (some [⟨0, "0"⟩, ⟨1, "1"⟩, ⟨2, "2"⟩, ⟨3, "3"⟩])) =
        some [⟨0, "0"⟩, ⟨1, "1"⟩, ⟨2, "2"⟩, ⟨3, "3"⟩] ∧
      CompareTrees (MakeTree (some [⟨0, "0"⟩, ⟨1, "1"⟩, ⟨2, "2"⟩, ⟨3, "3"⟩]))
        (MakeTree (some (preorder (MakeTree (some [⟨0, "0"⟩, ⟨1, "1"⟩, ⟨2, "2"⟩, ⟨3, "3"⟩]))))) =
        some true :=
  ⟨by decide, by decide,
    (C18_increasing_keys_chain [⟨0, "0"⟩, ⟨1, "1"⟩, ⟨2, "2"⟩, ⟨3, "3"⟩] (by decide)).2.1,
    (C18_increasing_keys_chain [⟨0, "0"⟩, ⟨1, "1"⟩, ⟨2, "2"⟩, ⟨3, "3"⟩] (by decide)).2.2.1,
    (C18_increasing_keys_chain [⟨0, "0"⟩, ⟨1, "1"⟩, ⟨2, "2"⟩, ⟨3, "3"⟩] (by decide)).2.2.2.1
      (by decide),
    (C18_increasing_keys_chain [⟨0, "0"⟩, ⟨1, "1"⟩, ⟨2, "2"⟩, ⟨3, "3"⟩] (by decide)).2.2.2.2⟩

/-- C19: `CompareTrees` returns a result for every pair of trees; `processTree` never ends in a
run-time failure, whatever the visitor (`Pop` is only called on a non-empty stack, where it
succeeds, and only node references are pushed); and on a non-empty tree the accumulating visitor
has set its pointer, to the whole pre-order sequence, when `processTree` returns. -/
theorem C19_CompareTrees_never_fails :
    (∀ a b : Node, ∃ r, CompareTrees a b = some r) ∧
    (∀ (σ : Type) (f : parseTreeDataFunc σ) (t : Node) (s : σ),
      processTree f t s ≠ Outcome.crashed) ∧
    (∀ st : stack, 0 < st.length → ∃ st1 n, stack.Pop st = some (st1, n)) ∧
    (∀ t : Node, t ≠ Node.nil → ∃ st,
      processTree getPreOrderDataVals t PreOrderAcc.new = Outcome.finished st ∧
        st.pptr = some (preorder t)) := by
  refine ⟨?_, ?_, ?_, ?_⟩
  · intro a b
    by_cases ha : a = Node.nil
    · by_cases hb : b = Node.nil
      · exact ⟨true, by simp [CompareTrees, ha, hb]⟩
      · exact ⟨false, by simp [CompareTrees, ha, hb]⟩
    · by_cases hb : b = Node.nil
      · exact ⟨false, by simp [CompareTrees, ha, hb]⟩
      · exact ⟨_, CompareTrees_of_ne_nil ha hb⟩
  · intro σ f t s
    rw [processTree_eq_visitAll]
    exact visitAll_ne_crashed f _ s
  · intro st hst
    unfold stack.Pop
    simp only [hst, dite_true]
    exact ⟨_, _, rfl⟩
  · intro t ht
    rw [processTree_getPreOrderDataVals]
    exact ⟨_, rfl, by simp [ht]⟩

theorem C19_CompareTrees_never_fails_witness :
    sampleTree ≠ Node.nil ∧
      ∃ st, processTree getPreOrderDataVals sampleTree PreOrderAcc.new = Outcome.finished st ∧
        st.pptr = some (preorder sampleTree) :=
  ⟨by decide, C19_CompareTrees_never_fails.2.2.2 sampleTree (by decide)⟩

/-- C20: the loop of `addtotree` runs at most `height(t)` times (the counting copy of the loop
returns the tree of `addtotree`), and with a visitor that never fails the loop of `processTree`
on a non-empty tree reaches the empty stack, where it ends, after exactly as many iterations as
the tree has nodes, the stack being non-empty at the head of every earlier iteration. -/
theorem C20_loops_terminate {σ : Type} (f : parseTreeDataFunc σ)
    (hf : ∀ d s, (f d s).2 = none) (t : Node) (d : Data) (s : σ) :
    (addtotreeCount t d).1 = addtotree t d ∧
      (addtotreeCount t d).2 ≤ t.height ∧
      (t ≠ Node.nil →
        (∃ s1, processTreeIter f t.size (stack.Push [] t) s = some ([], s1) ∧
          processTree f t s = Outcome.finished s1) ∧
        ∀ k, k < t.size → ∃ st s1,
          processTreeIter f k (stack.Push [] t) s = some (st, s1) ∧ st ≠ []) := by
  refine ⟨?_, ?_, ?_⟩
  · unfold addtotreeCount addtotree
    by_cases ht : t = Node.nil
    · simp [ht]
    · simp only [ht, if_false]
      exact (addtotreeLoopCount_spec d (newnode d) t).1
  · unfold addtotreeCount
    by_cases ht : t = Node.nil
    · simp [ht]
    · simp only [ht, if_false]
      exact (addtotreeLoopCount_spec d (newnode d) t).2
  · intro ht
    have hall : ∀ n ∈ stack.Push [] t, n ≠ Node.nil := by
      intro n hn
      simp only [stack.Push, List.nil_append, List.mem_singleton] at hn
      rw [hn]
      exact ht
    have hw : stackWeight (stack.Push [] t) = t.size := by
      simp [stack.Push, stackWeight]
    constructor
    · obtain ⟨st3, s1, hit, hw3, hall3⟩ :=
        processTreeIter_of_never_fails f hf t.size _ s hall (by omega)
      have hst3 : st3 = [] := by
        by_contra hne
        have := stackWeight_pos hall3 hne
        omega
      subst hst3
      refine ⟨s1, hit, ?_⟩
      unfold processTree
      rw [if_neg ht, processTreeLoop_of_processTreeIter f t.size _ [] s s1 hit,
        processTreeLoop_nil]
    · intro k hk
      obtain ⟨st3, s1, hit, hw3, -⟩ :=
        processTreeIter_of_never_fails f hf k _ s hall (by omega)
      refine ⟨st3, s1, hit, ?_⟩
      intro h0
      subst h0
      have h00 : stackWeight ([] : stack) = 0 := rfl
      rw [h00] at hw3
      omega

theorem C20_loops_terminate_witness :
    (∀ d s, (getPreOrderDataVals d s).2 = none) ∧ sampleTree ≠ Node.nil ∧
      (addtotreeCount sampleTree ⟨8, "8"⟩).2 ≤ sampleTree.height ∧
      (∃ s1, processTreeIter getPreOrderDataVals sampleTree.size (stack.Push [] sampleTree)
          PreOrderAcc.new = some ([], s1) ∧
        processTree getPreOrderDataVals sampleTree PreOrderAcc.new = Outcome.finished s1) :=
  ⟨fun _ _ => rfl, by decide,
    (C20_loops_terminate getPreOrderDataVals (fun _ _ => rfl) sampleTree ⟨8, "8"⟩
      PreOrderAcc.new).2.1,
    ((C20_loops_terminate getPreOrderDataVals (fun _ _ => rfl) sampleTree ⟨8, "8"⟩
      PreOrderAcc.new).2.2 (by decide)).1⟩

end TreeEncode
